import Mathlib

/-!
# gobits: the bot engine (`bot_engine.go`)

A shallow embedding of the tick scheduler, the per-bot register store, the
action queue and the delayed-action list of `bot_engine.go`.

* Sequential code (the body of `eventHandler`, the two Lua primitives, the drain
  loop and the delayed-action loop of the timer case) is embedded as functions.
* The goroutines are embedded as a labelled transition system `step` over a
  global `State`; every label is one atomic step of one goroutine.

Conventions.
* Go `int` values (tick counter, target ticks, register values) are embedded as
  `Int`. The only `int` arithmetic of the program, `tickCount + 1` (line 179) and
  `tickCount++` (line 203), is embedded with the wrap-around of the 64-bit `int`
  (`wrapInt`).
* Bot identifiers are the loop indices of `for i := range numBots`, embedded as `Nat`.
* A buffered channel is the list of the values it holds, oldest first, together
  with its capacity; a send on a full channel does not complete.
-/

namespace Gobits

/-! ## Data model -/

/-- The `Event` struct: the request a bot sends to the scheduler. -/
structure Event where
  BotID : Nat
  Command : String
deriving DecidableEq, Repr

/-- The `RegChange` struct: a message on a bot's `RegChanges` channel. -/
structure RegChange where
  Register : String
  Value : Int
deriving DecidableEq, Repr

/-- The `Registers` field, a Go `map[string]int`: `none` is an absent key. -/
def Registers : Type := String → Option Int

/-- The map made by `make(map[string]int)`. -/
def Registers.empty : Registers := fun _ => none

/-- The read `bot.Registers[key]`: the zero value when the key is absent. -/
def Registers.get (r : Registers) (key : String) : Int := (r key).getD 0

/-- The write `bot.Registers[key] = value`. -/
def Registers.set (r : Registers) (key : String) (value : Int) : Registers :=
  fun k => if k = key then some value else r k

/-- The message built by the closure of a delayed action (line 181). -/
def resetMsg : RegChange := ⟨"motor_ready", 0⟩

/-- The `DelayedAction` struct. The only closure the program ever stores in `Action`
is `func() { bots[event.BotID].In <- RegChange{"motor_ready", 0} }` (lines 180-182);
it is represented by the value it captures, `event.BotID`. -/
structure DelayedAction where
  TargetTick : Int
  Action : Nat
deriving DecidableEq, Repr

/-! ## Sequential code -/

/-- The body of the loop of `Bot.eventHandler` (lines 88-90) for one received
`event`: under `RegMutex`, `bot.Registers[event.Register] = event.Value`. -/
def eventHandler (regs : Registers) (event : RegChange) : Registers :=
  regs.set event.Register event.Value

/-- The Lua primitive `motor_step_fw` (lines 119-127) of the bot `ID`, run on its
register store under `RegMutex`. Returns the store it leaves and the
event it sends on `ActionOut`, if it sends one. -/
def motor_step_fw (ID : Nat) (regs : Registers) : Registers × Option Event :=
  if regs.get "motor_ready" = 0 then
    (regs.set "motor_ready" 1, some ⟨ID, "move_fw"⟩)
  else
    (regs, none)

/-- One iteration of the loop of the Lua primitive `motor_wait` (lines 108-114):
`true` when the loop breaks (the primitive returns), `false` when it sleeps and
iterates again. -/
def motor_wait (regs : Registers) : Bool :=
  decide (regs.get "motor_ready" = 0)

/-- A sequence of `calls` consecutive calls of `motor_step_fw` by the bot `ID`, with
nothing else writing the store in between: the final store and all events sent. -/
def motor_step_fw_calls (ID : Nat) : Nat → Registers → Registers × List Event
  | 0, regs => (regs, [])
  | calls + 1, regs =>
    let first := motor_step_fw ID regs
    let later := motor_step_fw_calls ID calls first.1
    (later.1, first.2.toList ++ later.2)

/-- The largest value of a Go `int` (64 bits). -/
def maxInt : Int := 9223372036854775807

/-- The smallest value of a Go `int` (64 bits). -/
def minInt : Int := -9223372036854775808

/-- The value of a Go `int` expression whose mathematical value is `x`: integer
overflow wraps around in two's complement, 64 bits wide. -/
def wrapInt (x : Int) : Int :=
  (x + 9223372036854775808) % 18446744073709551616 - 9223372036854775808

/-- The notification of line 177, `fmt.Sprintf("bot %d has moved forward", event.BotID)`. -/
def movedMsg (botID : Nat) : String :=
  "bot " ++ toString botID ++ " has moved forward"

/-- The delayed action appended at lines 178-183 for `event`. -/
def schedule (tickCount : Int) (event : Event) : DelayedAction :=
  ⟨wrapInt (tickCount + 1), event.BotID⟩

/-- The variables the drain loop works on. -/
structure Drain where
  toProcess : List Event
  out : List String
  delayedActions : List DelayedAction
deriving DecidableEq, Repr

/-- The `drainLoop` (lines 172-189): a non-blocking receive from `toProcess` until
it is empty (the `default` case breaks the loop). -/
def drainLoop (tickCount : Int) : List Event → List String → List DelayedAction → Drain
  | [], out, delayedActions => ⟨[], out, delayedActions⟩
  | event :: toProcess, out, delayedActions =>
    if event.Command = "move_fw" then
      drainLoop tickCount toProcess (out ++ [movedMsg event.BotID])
        (delayedActions ++ [schedule tickCount event])
    else
      drainLoop tickCount toProcess out delayedActions

/-- The result of the delayed-action loop: the actions whose `Action()` was
called, in call order, and the slice `remaining`. -/
structure Resolved where
  executed : List DelayedAction
  remaining : List DelayedAction
deriving DecidableEq, Repr

/-- The loop "execute delayed actions" (lines 192-199) over `delayedActions`,
from the accumulated `executed` calls and `remaining` slice. -/
def resolveLoop (tickCount : Int) : List DelayedAction → Resolved → Resolved
  | [], acc => acc
  | da :: rest, acc =>
    if da.TargetTick = tickCount then
      resolveLoop tickCount rest ⟨acc.executed ++ [da], acc.remaining⟩
    else
      resolveLoop tickCount rest ⟨acc.executed, acc.remaining ++ [da]⟩

/-- The resolve pass of one timer fire (lines 192-200): `remaining` starts `nil`. -/
def resolve (tickCount : Int) (delayedActions : List DelayedAction) : Resolved :=
  resolveLoop tickCount delayedActions ⟨[], []⟩

/-- The variables of the scheduler goroutine (lines 161-164) and the messages it
has sent on `out`, oldest first. -/
structure Sched where
  tickCount : Int
  delayedActions : List DelayedAction
  toProcess : List Event
  out : List String
deriving DecidableEq, Repr

/-- The timer case of the scheduler's `select` (lines 170-203), up to the calls of
`Action()`: the scheduler variables it leaves, and the delayed actions whose
`Action()` it calls, in call order. -/
def timerFire (s : Sched) : Sched × List DelayedAction :=
  let d := drainLoop s.tickCount s.toProcess (s.out ++ ["game tick"]) s.delayedActions
  let r := resolve s.tickCount d.delayedActions
  (⟨wrapInt (s.tickCount + 1), r.remaining, d.toProcess, d.out ++ ["done processing"]⟩,
    r.executed)

/-! ## The goroutines as a transition system -/

/-- Where the Lua script of a bot stands. -/
inductive Script
  /-- Running Lua code, outside the two primitives. -/
  | running
  /-- Inside the loop of `motor_wait`. -/
  | waiting
  /-- Inside `motor_step_fw`, blocked in the send `bot.ActionOut <- e` of line 124
  with `RegMutex` held. -/
  | sending (e : Event)
deriving DecidableEq, Repr

/-- One bot: the `Bot` struct and its two goroutines. `inbound` is the value
`eventHandler` has received from the unbuffered channel `RegChanges` and not yet
written to `Registers` (its local `event` between lines 87 and 89). -/
structure Bot where
  ID : Nat
  Registers : Registers
  inbound : Option RegChange
  script : Script

/-- The capacity of `eventQueue` (line 151). -/
def eventQueueCap : Nat := 8

/-- The capacity of `toProcess` (line 164). -/
def toProcessCap : Nat := 8

/-- The global state. `held` is the scheduler's local `event` of line 206 while the
send of line 207 is blocked on a full `toProcess`. `submitted` and `processed` are
history counters that no step reads: the sends completed on `eventQueue` and the
receives completed by drain loops; in reachable states `processed` is the number
of notifications `bot <id> has moved forward` on `out` (`Inv.traced`). -/
structure State where
  bots : Nat → Bot
  eventQueue : List Event
  sched : Sched
  held : Option Event
  submitted : Nat
  processed : Nat

/-- The state `main` sets up: `NewBot(i, ...)` for every `i`, empty channels,
`tickCount` zero, no delayed action. -/
def State.init : State where
  bots := fun i => ⟨i, Registers.empty, none, .running⟩
  eventQueue := []
  sched := ⟨0, [], [], []⟩
  held := none
  submitted := 0
  processed := 0

/-- The call `da.Action()` (line 195): the send of `resetMsg` on `bots[da.Action].In`.
The channel is unbuffered, so the send completes only while the bot's
`eventHandler` stands at its receive; for an identifier outside `bots` the
channel is nil and the send never completes. -/
def runAction (numBots : Nat) (bots : Nat → Bot) (da : DelayedAction) : Option (Nat → Bot) :=
  if da.Action < numBots ∧ (bots da.Action).inbound = none then
    some (Function.update bots da.Action { bots da.Action with inbound := some resetMsg })
  else
    none

/-- The calls of `Action()` of one resolve pass, in order. -/
def runActions (numBots : Nat) : List DelayedAction → (Nat → Bot) → Option (Nat → Bot)
  | [], bots => some bots
  | da :: rest, bots => (runAction numBots bots da).bind (runActions numBots rest)

/-- The atomic steps of the goroutines. -/
inductive Label
  /-- The script of bot `i` calls `motor_step_fw`. -/
  | motorStepFw (i : Nat)
  /-- The blocked send of bot `i` inside `motor_step_fw` completes. -/
  | sendDone (i : Nat)
  /-- The script of bot `i` calls `motor_wait`. -/
  | motorWait (i : Nat)
  /-- One iteration of the loop of `motor_wait` of bot `i`. -/
  | poll (i : Nat)
  /-- The `eventHandler` of bot `i` writes the value it received. -/
  | listen (i : Nat)
  /-- The scheduler takes the case `event := <-eventQueue` (lines 206-207). -/
  | forward
  /-- The scheduler takes the case `<-timer.C` (lines 169-204). -/
  | timer
deriving DecidableEq, Repr

/-- One step of the system of `numBots` bots; `none` when the step cannot be taken
in `s` (the goroutine is elsewhere, or is blocked).

A call of `motor_step_fw` is one step up to its send, since it runs under
`RegMutex`. The case `event := <-eventQueue` is one step when `toProcess` has
room, since only the scheduler touches `toProcess`. The timer case is one step:
`main` receives its sends on `out` and does nothing else, and the step is taken
in the states where every send of `Action()` finds the `eventHandler` at its
receive, which are all the reachable states whose scheduler is not blocked
(`Inv.timer_eq`). -/
def step (numBots : Nat) (s : State) : Label → Option State
  | .motorStepFw i =>
    let bot := s.bots i
    if i < numBots ∧ bot.script = .running then
      match motor_step_fw bot.ID bot.Registers with
      | (regs, none) =>
        some { s with bots := Function.update s.bots i { bot with Registers := regs } }
      | (regs, some e) =>
        if s.eventQueue.length < eventQueueCap then
          some { s with
            bots := Function.update s.bots i { bot with Registers := regs }
            eventQueue := s.eventQueue ++ [e]
            submitted := s.submitted + 1 }
        else
          some { s with
            bots := Function.update s.bots i { bot with Registers := regs, script := .sending e } }
    else none
  | .sendDone i =>
    let bot := s.bots i
    match bot.script with
    | .sending e =>
      if i < numBots ∧ s.eventQueue.length < eventQueueCap then
        some { s with
          bots := Function.update s.bots i { bot with script := .running }
          eventQueue := s.eventQueue ++ [e]
          submitted := s.submitted + 1 }
      else none
    | _ => none
  | .motorWait i =>
    let bot := s.bots i
    if i < numBots ∧ bot.script = .running then
      some { s with bots := Function.update s.bots i { bot with script := .waiting } }
    else none
  | .poll i =>
    let bot := s.bots i
    if i < numBots ∧ bot.script = .waiting then
      if motor_wait bot.Registers then
        some { s with bots := Function.update s.bots i { bot with script := .running } }
      else
        some s
    else none
  | .listen i =>
    let bot := s.bots i
    match bot.inbound, bot.script with
    | _, .sending _ => none
    | none, _ => none
    | some event, _ =>
      if i < numBots then
        some { s with
          bots := Function.update s.bots i
            { bot with Registers := eventHandler bot.Registers event, inbound := none } }
      else none
  | .forward =>
    match s.held, s.eventQueue with
    | none, event :: rest =>
      if s.sched.toProcess.length < toProcessCap then
        some { s with
          eventQueue := rest
          sched := { s.sched with toProcess := s.sched.toProcess ++ [event] } }
      else
        some { s with eventQueue := rest, held := some event }
    | _, _ => none
  | .timer =>
    match s.held with
    | none =>
      let fire := timerFire s.sched
      (runActions numBots fire.2 s.bots).map fun bots =>
        { s with
          bots := bots
          sched := fire.1
          processed := s.processed + s.sched.toProcess.length }
    | some _ => none

/-- The states the system of `numBots` bots can be in. -/
inductive Reachable (numBots : Nat) : State → Prop
  | init : Reachable numBots State.init
  | step {s s' : State} (l : Label) : Reachable numBots s → step numBots s l = some s' →
      Reachable numBots s'

/-- The state after the steps `ls` taken in order from `s`, when all can be taken. -/
def run (numBots : Nat) (s : State) : List Label → Option State
  | [] => some s
  | l :: ls => (step numBots s l).bind fun s' => run numBots s' ls

/-! ## Vocabulary of the statements -/

/-- The requests of a batch whose command is `move_fw`, in arrival order. -/
def moveRequests (batch : List Event) : List Event :=
  batch.filter fun e => e.Command = "move_fw"

/-- The delayed actions a drain pass at tick `tickCount` creates for a batch: one
for each `move_fw` request, in arrival order. -/
def created (tickCount : Int) (batch : List Event) : List DelayedAction :=
  (moveRequests batch).map (schedule tickCount)

/-- The notifications a drain pass sends for a batch. -/
def notifications (batch : List Event) : List String :=
  (moveRequests batch).map fun e => movedMsg e.BotID

/-- The pending actions that are due at tick `c` under the test of line 194. -/
def dueAt (c : Int) (delayedActions : List DelayedAction) : List DelayedAction :=
  delayedActions.filter fun da => da.TargetTick = c

/-- The pending actions that are not due at tick `c` under the test of line 194. -/
def notDueAt (c : Int) (delayedActions : List DelayedAction) : List DelayedAction :=
  delayedActions.filter fun da => ¬ da.TargetTick = c

/-- The requests of bot `i` in a channel. -/
def requestsOf (i : Nat) (queue : List Event) : Nat :=
  queue.countP fun e => e.BotID = i

/-- The pending delayed actions whose closure targets bot `i`. -/
def actionsOf (i : Nat) (delayedActions : List DelayedAction) : Nat :=
  delayedActions.countP fun da => da.Action = i

/-- The messages handed to a bot's `eventHandler` and not yet written (the field
`inbound` of the bot). -/
def undelivered : Option RegChange → Nat
  | none => 0
  | some _ => 1

/-- The sends a script is blocked in on a full `eventQueue`. -/
def blockedSends : Script → Nat
  | .sending _ => 1
  | _ => 0

/-- The requests of bot `i` in flight: in `eventQueue`, in `toProcess`, as a
pending delayed action, or as a reset message not yet written. -/
def inFlight (s : State) (i : Nat) : Nat :=
  requestsOf i s.eventQueue + requestsOf i s.sched.toProcess +
    actionsOf i s.sched.delayedActions + undelivered (s.bots i).inbound

/-- Everything outstanding for bot `i`: what is in flight, a request held by a
blocked scheduler, and a send the script is blocked in. -/
def outstanding (s : State) (i : Nat) : Nat :=
  inFlight s i + requestsOf i s.held.toList + blockedSends (s.bots i).script

/-- Whether a message on `out` is a notification of line 177, `bot <id> has moved
forward`: it starts with `bot `, which neither `game tick` nor `done processing`
does. -/
def isMovedMsg (msg : String) : Bool :=
  "bot ".data.isPrefixOf msg.data

/-- The requests the drain passes have processed, as the trace shows them: the
notifications `bot <id> has moved forward` sent on `out`. -/
def notified (out : List String) : Nat :=
  out.countP isMovedMsg

/-- The invariant of the reachable states. For every bot `i`: its `ID` is its
index; a send it is blocked in carries its own `move_fw` request; a message its
`eventHandler` holds is the reset message; its `motor_ready` register equals the
number of things outstanding for it, which is at most one. No channel holds more
than its capacity, and the scheduler is blocked only on a full `toProcess`. The
history counter `processed` equals the notifications on `out`. -/
structure Inv (numBots : Nat) (s : State) : Prop where
  traced : s.processed = notified s.sched.out
  queues : s.eventQueue.length ≤ eventQueueCap ∧ s.sched.toProcess.length ≤ toProcessCap ∧
    (s.held ≠ none → s.sched.toProcess.length = toProcessCap)
  requests : ∀ e, e ∈ s.eventQueue ∨ e ∈ s.sched.toProcess ∨ e ∈ s.held.toList →
    e.Command = "move_fw" ∧ e.BotID < numBots
  actions : ∀ da ∈ s.sched.delayedActions,
    da.TargetTick = s.sched.tickCount ∧ da.Action < numBots
  counted : s.submitted =
    s.processed + s.eventQueue.length + s.sched.toProcess.length + s.held.toList.length
  bot : ∀ i, (s.bots i).ID = i ∧
    (∀ e, (s.bots i).script = .sending e → e = ⟨i, "move_fw"⟩) ∧
    (∀ rc, (s.bots i).inbound = some rc → rc = resetMsg) ∧
    (s.bots i).Registers.get "motor_ready" = (outstanding s i : Int) ∧
    outstanding s i ≤ 1

/-! ## Concrete runs -/

/-- The state the steps `ls` lead to from the initial state, for concrete runs. -/
def stateAfter (numBots : Nat) (ls : List Label) : State :=
  (run numBots State.init ls).getD State.init

/-- Bot 0 calls `motor_step_fw`, the scheduler forwards the request and the timer
fires once. -/
def oneRequestRun : List Label :=
  [.motorStepFw 0, .forward, .timer]

/-- Eight bots call `motor_step_fw` and fill `eventQueue`. -/
def eightCalls : List Label :=
  (List.range 8).map Label.motorStepFw

/-- After `eightCalls`, a ninth bot calls `motor_step_fw`; the scheduler forwards
the eight queued requests, the ninth send completes, and the scheduler takes the
ninth request from `eventQueue`. -/
def blockedRun : List Label :=
  eightCalls ++ [.motorStepFw 8] ++ List.replicate 8 .forward ++ [.sendDone 8, .forward]

/-- The scenario of one bot: bot 0 calls `motor_step_fw`, the request is
forwarded, the timer fires (tick 0), bot 0 calls `motor_wait` and polls once,
the timer fires again (tick 1). -/
def scenarioRun : List Label :=
  [.motorStepFw 0, .forward, .timer, .motorWait 0, .poll 0, .timer]

/-! ## The sequential code: lemmas -/

theorem wrapInt_succ_ne (t : Int) : wrapInt (t + 1) ≠ t := by
  unfold wrapInt
  omega

theorem wrapInt_of_range {x : Int} (h1 : minInt ≤ x) (h2 : x ≤ maxInt) : wrapInt x = x := by
  unfold minInt at h1
  unfold maxInt at h2
  unfold wrapInt
  omega

theorem wrapInt_succ_of_lt {t : Int} (h1 : minInt ≤ t) (h2 : t < maxInt) :
    wrapInt (t + 1) = t + 1 := by
  unfold minInt at h1
  unfold maxInt at h2
  unfold wrapInt
  omega

theorem wrapInt_idem (x : Int) : wrapInt (wrapInt x) = wrapInt x := by
  unfold wrapInt
  omega

theorem wrapInt_add (x c : Int) : wrapInt (wrapInt x + c) = wrapInt (x + c) := by
  unfold wrapInt
  omega

theorem Registers.get_set_same (r : Registers) (key : String) (value : Int) :
    (r.set key value).get key = value := by
  simp [Registers.get, Registers.set]

theorem Registers.set_other (r : Registers) (key k : String) (value : Int) (h : k ≠ key) :
    r.set key value k = r k := by
  simp [Registers.set, h]

theorem Registers.set_set (r : Registers) (key : String) (value : Int) :
    (r.set key value).set key value = r.set key value := by
  funext k
  by_cases h : k = key <;> simp [Registers.set, h]

theorem drainLoop_eq (t : Int) (batch : List Event) (out : List String)
    (das : List DelayedAction) :
    drainLoop t batch out das = ⟨[], out ++ notifications batch, das ++ created t batch⟩ := by
  induction batch generalizing out das with
  | nil => simp [drainLoop, notifications, created, moveRequests]
  | cons e rest ih =>
    by_cases h : e.Command = "move_fw"
    · simp [drainLoop, h, ih, notifications, created, moveRequests]
    · simp [drainLoop, h, ih, notifications, created, moveRequests]

theorem resolveLoop_eq (c : Int) (das : List DelayedAction) (acc : Resolved) :
    resolveLoop c das acc = ⟨acc.executed ++ dueAt c das, acc.remaining ++ notDueAt c das⟩ := by
  induction das generalizing acc with
  | nil => simp [resolveLoop, dueAt, notDueAt]
  | cons da rest ih =>
    by_cases h : da.TargetTick = c
    · simp [resolveLoop, h, ih, dueAt, notDueAt]
    · simp [resolveLoop, h, ih, dueAt, notDueAt]

theorem resolve_eq (c : Int) (das : List DelayedAction) :
    resolve c das = ⟨dueAt c das, notDueAt c das⟩ := by
  simp [resolve, resolveLoop_eq]

theorem mem_dueAt {c : Int} {das : List DelayedAction} {da : DelayedAction} :
    da ∈ dueAt c das ↔ da ∈ das ∧ da.TargetTick = c := by
  simp [dueAt]

theorem mem_notDueAt {c : Int} {das : List DelayedAction} {da : DelayedAction} :
    da ∈ notDueAt c das ↔ da ∈ das ∧ da.TargetTick ≠ c := by
  simp [notDueAt]

theorem mem_created {t : Int} {batch : List Event} {da : DelayedAction} :
    da ∈ created t batch ↔
      ∃ e ∈ batch, e.Command = "move_fw" ∧ da = ⟨wrapInt (t + 1), e.BotID⟩ := by
  simp only [created, moveRequests, schedule, List.mem_map, List.mem_filter, decide_eq_true_eq]
  constructor
  · rintro ⟨e, ⟨he, hc⟩, rfl⟩
    exact ⟨e, he, hc, rfl⟩
  · rintro ⟨e, he, hc, rfl⟩
    exact ⟨e, ⟨he, hc⟩, rfl⟩

theorem created_target {t : Int} {batch : List Event} {da : DelayedAction}
    (h : da ∈ created t batch) : da.TargetTick = wrapInt (t + 1) := by
  obtain ⟨e, _, _, rfl⟩ := mem_created.1 h
  rfl

theorem dueAt_created_self (t : Int) (batch : List Event) :
    dueAt (wrapInt (t + 1)) (created t batch) = created t batch := by
  unfold dueAt
  rw [List.filter_eq_self]
  intro da h
  simp [created_target h]

theorem dueAt_created_ne (t c : Int) (batch : List Event) (h : c ≠ wrapInt (t + 1)) :
    dueAt c (created t batch) = [] := by
  unfold dueAt
  rw [List.filter_eq_nil_iff]
  intro da hda
  simp [created_target hda, Ne.symm h]

theorem notDueAt_created_ne (t c : Int) (batch : List Event) (h : c ≠ wrapInt (t + 1)) :
    notDueAt c (created t batch) = created t batch := by
  unfold notDueAt
  rw [List.filter_eq_self]
  intro da hda
  simp [created_target hda, Ne.symm h]

theorem dueAt_append (c : Int) (xs ys : List DelayedAction) :
    dueAt c (xs ++ ys) = dueAt c xs ++ dueAt c ys := by
  simp [dueAt]

theorem notDueAt_append (c : Int) (xs ys : List DelayedAction) :
    notDueAt c (xs ++ ys) = notDueAt c xs ++ notDueAt c ys := by
  simp [notDueAt]

/-- The timer case in closed form. -/
theorem timerFire_eq (s : Sched) :
    timerFire s =
      (⟨wrapInt (s.tickCount + 1),
        notDueAt s.tickCount s.delayedActions ++ created s.tickCount s.toProcess,
        [], s.out ++ ["game tick"] ++ notifications s.toProcess ++ ["done processing"]⟩,
       dueAt s.tickCount s.delayedActions) := by
  have h : s.tickCount ≠ wrapInt (s.tickCount + 1) := (wrapInt_succ_ne _).symm
  simp [timerFire, drainLoop_eq, resolve_eq, dueAt_append, notDueAt_append,
    dueAt_created_ne _ _ _ h, notDueAt_created_ne _ _ _ h]

/-! ## The transition system: lemmas -/

theorem requestsOf_append (i : Nat) (xs ys : List Event) :
    requestsOf i (xs ++ ys) = requestsOf i xs + requestsOf i ys := by
  simp [requestsOf]

theorem actionsOf_created (i : Nat) (t : Int) (batch : List Event)
    (h : ∀ e ∈ batch, e.Command = "move_fw") :
    actionsOf i (created t batch) = requestsOf i batch := by
  induction batch with
  | nil => simp [actionsOf, created, moveRequests, requestsOf]
  | cons e rest ih =>
    have he : e.Command = "move_fw" := h e (by simp)
    have ih' := ih (fun e' he' => h e' (by simp [he']))
    simp only [actionsOf, created, moveRequests, requestsOf] at ih' ⊢
    simp only [List.filter_cons, he, decide_True, if_true, List.map_cons, List.countP_cons,
      schedule, ih']

/-- The calls of `Action()` all complete when no two of them target the same bot
and every targeted `eventHandler` stands at its receive. -/
theorem runActions_spec (n : Nat) (das : List DelayedAction) (bots : Nat → Bot)
    (hlt : ∀ da ∈ das, da.Action < n)
    (hone : ∀ j, actionsOf j das + undelivered (bots j).inbound ≤ 1) :
    ∃ bots', runActions n das bots = some bots' ∧
      ∀ j, bots' j =
        if actionsOf j das = 0 then bots j else { bots j with inbound := some resetMsg } := by
  induction das generalizing bots with
  | nil => exact ⟨bots, rfl, fun j => by simp [actionsOf]⟩
  | cons da rest ih =>
    have hda : da.Action < n := hlt da (by simp)
    have h1 := hone da.Action
    simp only [actionsOf, List.countP_cons, decide_True, if_true] at h1
    have hin : (bots da.Action).inbound = none := by
      rcases hb : (bots da.Action).inbound with _ | rc
      · rfl
      · rw [hb] at h1
        simp [undelivered] at h1
    have hrest0 : List.countP (fun x => decide (x.Action = da.Action)) rest = 0 := by omega
    obtain ⟨bots', hrun, hb⟩ := ih
      (Function.update bots da.Action { bots da.Action with inbound := some resetMsg })
      (fun x hx => hlt x (by simp [hx]))
      (by
        intro j
        by_cases hj : j = da.Action
        · subst hj
          simp [actionsOf, hrest0, undelivered]
        · have h2 := hone j
          simp only [actionsOf, List.countP_cons] at h2
          simp only [actionsOf, Function.update_noteq hj]
          omega)
    refine ⟨bots', ?_, ?_⟩
    · simp [runActions, runAction, hda, hin, hrun]
    · intro j
      rw [hb j]
      by_cases hj : j = da.Action
      · subst hj
        simp [actionsOf, hrest0]
      · have hne : ¬ da.Action = j := fun h => hj h.symm
        simp [actionsOf, List.countP_cons, hne, Function.update_noteq hj]

theorem requestsOf_nil (i : Nat) : requestsOf i [] = 0 := rfl

theorem requestsOf_cons (i : Nat) (e : Event) (l : List Event) :
    requestsOf i (e :: l) = requestsOf i l + if e.BotID = i then 1 else 0 := by
  simp [requestsOf, List.countP_cons]

theorem requestsOf_single (i : Nat) (e : Event) :
    requestsOf i [e] = if e.BotID = i then 1 else 0 := by
  simp [requestsOf, List.countP_cons]

theorem isMovedMsg_movedMsg (i : Nat) : isMovedMsg (movedMsg i) = true := by
  simp only [isMovedMsg, movedMsg, String.data_append, List.isPrefixOf_iff_prefix]
  exact ⟨_, (List.append_assoc _ _ _).symm⟩

theorem notified_append (xs ys : List String) :
    notified (xs ++ ys) = notified xs + notified ys := by
  simp [notified]

theorem notified_notifications (batch : List Event)
    (h : ∀ e ∈ batch, e.Command = "move_fw") :
    notified (notifications batch) = batch.length := by
  induction batch with
  | nil => rfl
  | cons e rest ih =>
    have he : e.Command = "move_fw" := h e (by simp)
    have ih' := ih (fun x hx => h x (by simp [hx]))
    simp only [notified, notifications, moveRequests] at ih' ⊢
    simp only [List.filter_cons, he, decide_True, if_true, List.map_cons, List.countP_cons,
      isMovedMsg_movedMsg, ih', List.length_cons]

theorem Inv.init (n : Nat) : Inv n State.init where
  traced := rfl
  queues := by simp [State.init]
  requests := by simp [State.init]
  actions := by simp [State.init]
  counted := by simp [State.init]
  bot := by
    intro i
    simp [State.init, outstanding, inFlight, requestsOf, actionsOf, undelivered, blockedSends,
      Registers.get, Registers.empty]

theorem Inv.motorStepFw {n : Nat} {s s' : State} {i : Nat} (h : Inv n s)
    (hs : step n s (.motorStepFw i) = some s') : Inv n s' := by
  by_cases hi : i < n ∧ (s.bots i).script = .running
  swap
  · simp [step, hi] at hs
  obtain ⟨hin, hrun⟩ := hi
  obtain ⟨hid, hsend, hreset, hready, hone⟩ := h.bot i
  by_cases h0 : (s.bots i).Registers.get "motor_ready" = 0
  · have hout : outstanding s i = 0 := by
      rw [h0] at hready
      exact_mod_cast hready.symm
    by_cases hfull : s.eventQueue.length < eventQueueCap
    · simp only [step, hin, hrun, motor_step_fw, h0, hfull, hid, and_self, if_true,
        Option.some.injEq] at hs
      subst hs
      refine ⟨h.traced, ?_, ?_, h.actions, ?_, ?_⟩
      · have := h.queues
        simp only [List.length_append, List.length_singleton]
        exact ⟨by omega, this.2⟩
      · intro e he
        simp only [List.mem_append, List.mem_singleton] at he
        rcases he with (he | rfl) | he | he
        · exact h.requests e (Or.inl he)
        · exact ⟨rfl, hin⟩
        · exact h.requests e (Or.inr (Or.inl he))
        · exact h.requests e (Or.inr (Or.inr he))
      · have := h.counted
        simp only [List.length_append, List.length_singleton]
        omega
      · intro j
        by_cases hj : j = i
        · subst hj
          simp only [outstanding, inFlight, Function.update_same, requestsOf_append,
            requestsOf_single, if_true, Registers.get_set_same, hrun, blockedSends] at hout ⊢
          refine ⟨trivial, ?_, hreset, ?_, ?_⟩
          · simp
          · push_cast
            omega
          · omega
        · obtain ⟨jid, jsend, jreset, jready, jone⟩ := h.bot j
          have hne : ¬ i = j := fun hh => hj hh.symm
          simp only [outstanding, inFlight, Function.update_noteq hj, requestsOf_append,
            requestsOf_single, hne, if_false, Nat.add_zero] at jready jone ⊢
          exact ⟨jid, jsend, jreset, jready, jone⟩
    · simp only [step, hin, hrun, motor_step_fw, h0, hfull, hid, and_self, if_true, if_false,
        Option.some.injEq] at hs
      subst hs
      refine ⟨h.traced, h.queues, h.requests, h.actions, h.counted, ?_⟩
      intro j
      by_cases hj : j = i
      · subst hj
        simp only [outstanding, inFlight, Function.update_same,
          Registers.get_set_same, hrun, blockedSends] at hout ⊢
        refine ⟨trivial, ?_, hreset, ?_, ?_⟩
        · simp
        · push_cast
          omega
        · omega
      · simpa only [outstanding, inFlight, Function.update_noteq hj] using h.bot j
  · simp only [step, hin, hrun, motor_step_fw, h0, and_self, if_true, if_false,
      Option.some.injEq] at hs
    subst hs
    refine ⟨h.traced, h.queues, h.requests, h.actions, h.counted, ?_⟩
    intro j
    by_cases hj : j = i
    · subst hj
      simpa only [outstanding, inFlight, Function.update_same, hrun] using h.bot j
    · simpa only [outstanding, inFlight, Function.update_noteq hj] using h.bot j

theorem Inv.sendDone {n : Nat} {s s' : State} {i : Nat} (h : Inv n s)
    (hs : step n s (.sendDone i) = some s') : Inv n s' := by
  obtain ⟨hid, hsend, hreset, hready, hone⟩ := h.bot i
  rcases hsc : (s.bots i).script with _ | _ | e
  · simp [step, hsc] at hs
  · simp [step, hsc] at hs
  by_cases hc : i < n ∧ s.eventQueue.length < eventQueueCap
  swap
  · simp [step, hsc, hc] at hs
  have he : e = ⟨i, "move_fw"⟩ := hsend e hsc
  simp only [step, hsc, hc, and_self, if_true, Option.some.injEq] at hs
  subst hs
  refine ⟨h.traced, ?_, ?_, h.actions, ?_, ?_⟩
  · have := h.queues
    simp only [List.length_append, List.length_singleton]
    exact ⟨by omega, this.2⟩
  · intro e' he'
    simp only [List.mem_append, List.mem_singleton] at he'
    rcases he' with (he' | rfl) | he' | he'
    · exact h.requests e' (Or.inl he')
    · rw [he]; exact ⟨rfl, hc.1⟩
    · exact h.requests e' (Or.inr (Or.inl he'))
    · exact h.requests e' (Or.inr (Or.inr he'))
  · have := h.counted
    simp only [List.length_append, List.length_singleton]
    omega
  · intro j
    by_cases hj : j = i
    · subst hj
      simp only [outstanding, inFlight, Function.update_same, requestsOf_append,
        requestsOf_single, he, if_true, hsc, blockedSends] at hready hone ⊢
      refine ⟨hid, ?_, hreset, ?_, ?_⟩
      · simp
      · rw [hready]
        push_cast
        omega
      · omega
    · obtain ⟨jid, jsend, jreset, jready, jone⟩ := h.bot j
      have hne : ¬ i = j := fun hh => hj hh.symm
      simp only [outstanding, inFlight, Function.update_noteq hj, requestsOf_append,
        requestsOf_single, he, hne, if_false, Nat.add_zero] at jready jone ⊢
      exact ⟨jid, jsend, jreset, jready, jone⟩

theorem Inv.motorWait {n : Nat} {s s' : State} {i : Nat} (h : Inv n s)
    (hs : step n s (.motorWait i) = some s') : Inv n s' := by
  by_cases hi : i < n ∧ (s.bots i).script = .running
  swap
  · simp [step, hi] at hs
  obtain ⟨hin, hrun⟩ := hi
  obtain ⟨hid, hsend, hreset, hready, hone⟩ := h.bot i
  simp only [step, hin, hrun, and_self, if_true, Option.some.injEq] at hs
  subst hs
  refine ⟨h.traced, h.queues, h.requests, h.actions, h.counted, ?_⟩
  intro j
  by_cases hj : j = i
  · subst hj
    simp only [outstanding, inFlight, Function.update_same, hrun, blockedSends] at hready hone ⊢
    exact ⟨hid, by simp, hreset, hready, hone⟩
  · simpa only [outstanding, inFlight, Function.update_noteq hj] using h.bot j

theorem Inv.poll {n : Nat} {s s' : State} {i : Nat} (h : Inv n s)
    (hs : step n s (.poll i) = some s') : Inv n s' := by
  by_cases hi : i < n ∧ (s.bots i).script = .waiting
  swap
  · simp [step, hi] at hs
  obtain ⟨hin, hwait⟩ := hi
  obtain ⟨hid, hsend, hreset, hready, hone⟩ := h.bot i
  by_cases hw : motor_wait (s.bots i).Registers = true
  · simp only [step, hin, hwait, hw, and_self, if_true, Option.some.injEq] at hs
    subst hs
    refine ⟨h.traced, h.queues, h.requests, h.actions, h.counted, ?_⟩
    intro j
    by_cases hj : j = i
    · subst hj
      simp only [outstanding, inFlight, Function.update_same, hwait, blockedSends]
        at hready hone ⊢
      exact ⟨hid, by simp, hreset, hready, hone⟩
    · simpa only [outstanding, inFlight, Function.update_noteq hj] using h.bot j
  · have hw' : motor_wait (s.bots i).Registers = false := by simpa using hw
    simp only [step, hin, hwait, hw', and_self, if_true, Bool.false_eq_true, if_false,
      Option.some.injEq] at hs
    subst hs
    exact h

theorem Inv.listen {n : Nat} {s s' : State} {i : Nat} (h : Inv n s)
    (hs : step n s (.listen i) = some s') : Inv n s' := by
  obtain ⟨hid, hsend, hreset, hready, hone⟩ := h.bot i
  rcases hin : (s.bots i).inbound with _ | rc
  · rcases hsc : (s.bots i).script with _ | _ | e <;> simp [step, hin, hsc] at hs
  have hrc : rc = resetMsg := hreset rc hin
  have hB : blockedSends (s.bots i).script = 0 := by
    rcases hsc : (s.bots i).script with _ | _ | e
    · rfl
    · rfl
    · simp [step, hin, hsc] at hs
  have hs' : s' = { s with
      bots := Function.update s.bots i
        { s.bots i with Registers := eventHandler (s.bots i).Registers rc, inbound := none } } := by
    rcases hsc : (s.bots i).script with _ | _ | e
    · simp only [step, hin, hsc] at hs
      split_ifs at hs
      simpa [hsc] using hs.symm
    · simp only [step, hin, hsc] at hs
      split_ifs at hs
      simpa [hsc] using hs.symm
    · simp [step, hin, hsc] at hs
  subst hs'
  refine ⟨h.traced, h.queues, h.requests, h.actions, h.counted, ?_⟩
  intro j
  by_cases hj : j = i
  · subst hj
    simp only [outstanding, inFlight, Function.update_same, hin, hB, undelivered]
      at hready hone ⊢
    refine ⟨hid, hsend, by simp, ?_, by omega⟩
    rw [hrc]
    simp only [eventHandler, resetMsg, Registers.get_set_same]
    push_cast
    omega
  · simpa only [outstanding, inFlight, Function.update_noteq hj] using h.bot j

theorem Inv.forward {n : Nat} {s s' : State} (h : Inv n s)
    (hs : step n s .forward = some s') : Inv n s' := by
  rcases hh : s.held with _ | e0
  swap
  · simp [step, hh] at hs
  rcases hq : s.eventQueue with _ | ⟨e, rest⟩
  · simp [step, hh, hq] at hs
  have hreq := h.requests
  have hcount := h.counted
  simp only [hq, hh, List.mem_cons, Option.toList_none, List.not_mem_nil, or_false,
    List.length_cons, List.length_nil] at hreq hcount
  have hqs := h.queues
  simp only [hq, List.length_cons] at hqs
  by_cases hroom : s.sched.toProcess.length < toProcessCap
  · simp only [step, hh, hq, hroom, if_true, Option.some.injEq] at hs
    subst hs
    refine ⟨h.traced, ?_, ?_, h.actions, ?_, ?_⟩
    · simp only [List.length_append, List.length_singleton, hh]
      exact ⟨by omega, by omega, fun hc => absurd rfl hc⟩
    · intro e' he'
      simp only [List.mem_append, List.mem_singleton, hh, Option.toList_none,
        List.not_mem_nil, or_false] at he'
      rcases he' with he' | he' | rfl
      · exact hreq e' (Or.inl (Or.inr he'))
      · exact hreq e' (Or.inr he')
      · exact hreq e' (Or.inl (Or.inl rfl))
    · simp only [List.length_append, List.length_singleton, hh, Option.toList_none,
        List.length_nil]
      omega
    · intro j
      have hb := h.bot j
      simp only [outstanding, inFlight, hq, hh, requestsOf_cons, requestsOf_append,
        requestsOf_single, Option.toList_none, requestsOf_nil] at hb ⊢
      obtain ⟨jid, jsend, jreset, jready, jone⟩ := hb
      refine ⟨jid, jsend, jreset, ?_, by omega⟩
      rw [jready]
      push_cast
      omega
  · simp only [step, hh, hq, hroom, if_false, Option.some.injEq] at hs
    subst hs
    refine ⟨h.traced, ?_, ?_, h.actions, ?_, ?_⟩
    · show rest.length ≤ eventQueueCap ∧ s.sched.toProcess.length ≤ toProcessCap ∧
        (some e ≠ none → s.sched.toProcess.length = toProcessCap)
      exact ⟨by omega, hqs.2.1, fun _ => by omega⟩
    · intro e' he'
      simp only [Option.toList_some, List.mem_singleton] at he'
      rcases he' with he' | he' | rfl
      · exact hreq e' (Or.inl (Or.inr he'))
      · exact hreq e' (Or.inr he')
      · exact hreq e' (Or.inl (Or.inl rfl))
    · simp only [Option.toList_some, List.length_singleton]
      omega
    · intro j
      have hb := h.bot j
      simp only [outstanding, inFlight, hq, hh, requestsOf_cons, Option.toList_none,
        Option.toList_some, requestsOf_single, requestsOf_nil] at hb ⊢
      obtain ⟨jid, jsend, jreset, jready, jone⟩ := hb
      refine ⟨jid, jsend, jreset, ?_, by omega⟩
      rw [jready]
      push_cast
      omega

theorem dueAt_eq_self {c : Int} {das : List DelayedAction}
    (h : ∀ da ∈ das, da.TargetTick = c) : dueAt c das = das := by
  unfold dueAt
  rw [List.filter_eq_self]
  intro da hda
  simp [h da hda]

theorem notDueAt_eq_nil {c : Int} {das : List DelayedAction}
    (h : ∀ da ∈ das, da.TargetTick = c) : notDueAt c das = [] := by
  unfold notDueAt
  rw [List.filter_eq_nil_iff]
  intro da hda
  simp [h da hda]

/-- In a state of the invariant whose scheduler is not blocked, the timer case
runs to its end: every pending action is executed, none of the sends of
`Action()` blocks, and the pending list becomes the actions created by the drain. -/
theorem Inv.timer_eq {n : Nat} {s : State} (h : Inv n s) (hh : s.held = none) :
    ∃ bots', runActions n s.sched.delayedActions s.bots = some bots' ∧
      (∀ j, bots' j = if actionsOf j s.sched.delayedActions = 0 then s.bots j
        else { s.bots j with inbound := some resetMsg }) ∧
      step n s .timer = some { s with
        bots := bots'
        sched := ⟨wrapInt (s.sched.tickCount + 1),
          created s.sched.tickCount s.sched.toProcess, [],
          s.sched.out ++ ["game tick"] ++ notifications s.sched.toProcess ++ ["done processing"]⟩
        processed := s.processed + s.sched.toProcess.length } := by
  have hdue : ∀ da ∈ s.sched.delayedActions, da.TargetTick = s.sched.tickCount :=
    fun da hda => (h.actions da hda).1
  obtain ⟨bots', hrun, hb⟩ := runActions_spec n s.sched.delayedActions s.bots
    (fun da hda => (h.actions da hda).2)
    (fun j => by
      have := (h.bot j).2.2.2.2
      simp only [outstanding, inFlight] at this
      omega)
  refine ⟨bots', hrun, hb, ?_⟩
  simp [step, hh, timerFire_eq, dueAt_eq_self hdue, notDueAt_eq_nil hdue, hrun]

theorem Inv.timer {n : Nat} {s s' : State} (h : Inv n s)
    (hs : step n s .timer = some s') : Inv n s' := by
  rcases hh : s.held with _ | e0
  swap
  · simp [step, hh] at hs
  obtain ⟨bots', _, hb, hstep⟩ := h.timer_eq hh
  rw [hstep] at hs
  simp only [Option.some.injEq] at hs
  subst hs
  have hreq := h.requests
  have hmove : ∀ e ∈ s.sched.toProcess, e.Command = "move_fw" :=
    fun e he => (hreq e (Or.inr (Or.inl he))).1
  refine ⟨?_, ?_, ?_, ?_, ?_, ?_⟩
  · have h1 : notified ["game tick"] = 0 := by decide
    have h2 : notified ["done processing"] = 0 := by decide
    simp only [notified_append, notified_notifications _ hmove, h1, h2, h.traced]
    omega
  · have := h.queues
    simp only [List.length_nil, hh]
    exact ⟨this.1, by simp [toProcessCap], fun hc => absurd rfl hc⟩
  · intro e he
    simp only [List.not_mem_nil, false_or] at he
    rcases he with he | he
    · exact hreq e (Or.inl he)
    · exact hreq e (Or.inr (Or.inr he))
  · intro da hda
    obtain ⟨e, he, _, rfl⟩ := mem_created.1 hda
    exact ⟨rfl, (hreq e (Or.inr (Or.inl he))).2⟩
  · have := h.counted
    simp only [List.length_nil]
    omega
  · intro j
    obtain ⟨jid, jsend, jreset, jready, jone⟩ := h.bot j
    simp only [outstanding, inFlight, actionsOf_created j _ _ hmove, requestsOf_nil, hh,
      Option.toList_none] at jready jone ⊢
    rw [hb j]
    by_cases hA : actionsOf j s.sched.delayedActions = 0
    · simp only [hA, if_true]
      refine ⟨jid, jsend, jreset, ?_, by omega⟩
      rw [jready]
      push_cast
      omega
    · have hU : undelivered (s.bots j).inbound = 0 := by omega
      simp only [hA, if_false, undelivered]
      refine ⟨jid, jsend, by simp, ?_, by omega⟩
      rw [jready]
      push_cast
      omega

theorem Inv.step {n : Nat} {s s' : State} (l : Label) (h : Inv n s)
    (hs : step n s l = some s') : Inv n s' := by
  cases l with
  | motorStepFw i => exact h.motorStepFw hs
  | sendDone i => exact h.sendDone hs
  | motorWait i => exact h.motorWait hs
  | poll i => exact h.poll hs
  | listen i => exact h.listen hs
  | forward => exact h.forward hs
  | timer => exact h.timer hs

theorem Reachable.inv {n : Nat} {s : State} (h : Reachable n s) : Inv n s := by
  induction h with
  | init => exact Inv.init n
  | step l _ hs ih => exact ih.step l hs

/-- Only the timer case touches the tick counter, the pending list and `out`. -/
theorem step_sched {n : Nat} {s s' : State} {l : Label} (hs : step n s l = some s')
    (hl : l ≠ .timer) :
    s'.sched.tickCount = s.sched.tickCount ∧
      s'.sched.delayedActions = s.sched.delayedActions ∧ s'.sched.out = s.sched.out := by
  cases l <;> simp only [step] at hs
  case timer => exact absurd rfl hl
  all_goals repeat' split at hs
  all_goals first
    | (cases hs; exact ⟨rfl, rfl, rfl⟩)
    | (simp at hs)

theorem runActions_frame (n : Nat) (das : List DelayedAction) (bots bots' : Nat → Bot)
    (h : runActions n das bots = some bots') (j : Nat) :
    (bots' j).ID = (bots j).ID ∧ (bots' j).Registers = (bots j).Registers ∧
      (bots' j).script = (bots j).script ∧
      (actionsOf j das = 0 → (bots' j).inbound = (bots j).inbound) ∧
      (0 < actionsOf j das → (bots' j).inbound = some resetMsg) := by
  induction das generalizing bots with
  | nil =>
    simp only [runActions, Option.some.injEq] at h
    subst h
    simp [actionsOf]
  | cons da rest ih =>
    simp only [runActions, runAction] at h
    split_ifs at h with hc
    · simp only [Option.some_bind] at h
      obtain ⟨h1, h2, h3, h4, h5⟩ := ih _ h
      by_cases hj : j = da.Action
      · subst hj
        simp only [Function.update_same] at h1 h2 h3 h4 h5
        refine ⟨h1, h2, h3, ?_, ?_⟩
        · simp [actionsOf, List.countP_cons]
        · intro _
          by_cases h0 : actionsOf da.Action rest = 0
          · exact h4 h0
          · exact h5 (by omega)
      · have hne : ¬ da.Action = j := fun hh => hj hh.symm
        simp only [Function.update_noteq hj] at h1 h2 h3 h4 h5
        simp only [actionsOf, List.countP_cons, hne, decide_False, Bool.false_eq_true, if_false,
          Nat.add_zero]
        exact ⟨h1, h2, h3, h4, h5⟩
    · simp at h

/-- Only the steps of bot `i` itself and the timer case touch bot `i`. -/
theorem step_bot {n : Nat} {s s' : State} {l : Label} (i : Nat) (hs : step n s l = some s')
    (h1 : l ≠ .motorStepFw i) (h2 : l ≠ .sendDone i) (h3 : l ≠ .motorWait i)
    (h4 : l ≠ .poll i) (h5 : l ≠ .listen i) (h6 : l ≠ .timer) : s'.bots i = s.bots i := by
  cases l <;> simp only [step] at hs
  case timer => exact absurd rfl h6
  case forward =>
    repeat' split at hs
    all_goals first
      | (cases hs; rfl)
      | (simp at hs)
  all_goals rename_i j
  all_goals
    have hj : i ≠ j := by
      rintro rfl
      first
        | exact h1 rfl
        | exact h2 rfl
        | exact h3 rfl
        | exact h4 rfl
        | exact h5 rfl
  all_goals repeat' split at hs
  all_goals first
    | (cases hs; exact Function.update_noteq hj _ _)
    | (cases hs; rfl)
    | (simp at hs)

theorem actionsOf_dueAt_eq_zero {i : Nat} {c : Int} {das : List DelayedAction}
    (h : actionsOf i das = 0) : actionsOf i (dueAt c das) = 0 := by
  simp only [actionsOf, dueAt, List.countP_eq_zero, List.mem_filter] at h ⊢
  intro da hda
  exact h da hda.1

/-- While bot `A` reads `motor_ready = 1` and its `eventHandler` holds no message,
every step keeps it so, except a timer case that executes an action for `A`. -/
theorem step_quiet {n : Nat} {s s' : State} {l : Label} {A : Nat}
    (hs : step n s l = some s')
    (hr : (s.bots A).Registers.get "motor_ready" = 1) (hin : (s.bots A).inbound = none)
    (ht : l = .timer → actionsOf A s.sched.delayedActions = 0) :
    (s'.bots A).Registers.get "motor_ready" = 1 ∧ (s'.bots A).inbound = none := by
  have hne : ¬ (s.bots A).Registers.get "motor_ready" = 0 := by omega
  by_cases hown : l = .motorStepFw A ∨ l = .sendDone A ∨ l = .motorWait A ∨ l = .poll A ∨
      l = .listen A ∨ l = .timer
  swap
  · simp only [not_or] at hown
    rw [step_bot A hs hown.1 hown.2.1 hown.2.2.1 hown.2.2.2.1 hown.2.2.2.2.1 hown.2.2.2.2.2]
    exact ⟨hr, hin⟩
  rcases hown with rfl | rfl | rfl | rfl | rfl | rfl
  · simp only [step, motor_step_fw, hne, if_false] at hs
    split_ifs at hs
    cases hs
    simp only [Function.update_same]
    exact ⟨hr, hin⟩
  · simp only [step] at hs
    repeat' split at hs
    all_goals first
      | (cases hs; simp only [Function.update_same]; exact ⟨hr, hin⟩)
      | (simp at hs)
  · simp only [step] at hs
    repeat' split at hs
    all_goals first
      | (cases hs; simp only [Function.update_same]; exact ⟨hr, hin⟩)
      | (simp at hs)
  · simp only [step] at hs
    repeat' split at hs
    all_goals first
      | (cases hs; simp only [Function.update_same]; exact ⟨hr, hin⟩)
      | (cases hs; exact ⟨hr, hin⟩)
      | (simp at hs)
  · rcases hsc : (s.bots A).script with _ | _ | e <;> simp [step, hin, hsc] at hs
  · simp only [step] at hs
    split at hs
    swap
    · simp at hs
    simp only [Option.map_eq_some'] at hs
    obtain ⟨bots', hrun, rfl⟩ := hs
    obtain ⟨_, h2, _, h4, _⟩ := runActions_frame n _ _ _ hrun A
    rw [timerFire_eq] at h4
    simp only at h2 h4 ⊢
    rw [h2, h4 (actionsOf_dueAt_eq_zero (ht rfl))]
    exact ⟨hr, hin⟩

theorem run_append (n : Nat) (s : State) (xs ys : List Label) :
    run n s (xs ++ ys) = (run n s xs).bind fun s' => run n s' ys := by
  induction xs generalizing s with
  | nil => simp [run]
  | cons l xs ih =>
    simp only [List.cons_append, run]
    cases step n s l with
    | none => simp
    | some s1 => simp [ih]

theorem reachable_run {n : Nat} {s s' : State} (ls : List Label) (h : Reachable n s)
    (hr : run n s ls = some s') : Reachable n s' := by
  induction ls generalizing s with
  | nil =>
    simp only [run, Option.some.injEq] at hr
    exact hr ▸ h
  | cons l ls ih =>
    simp only [run] at hr
    cases hstep : step n s l with
    | none => simp [hstep] at hr
    | some s1 =>
      simp only [hstep, Option.some_bind] at hr
      exact ih (Reachable.step l h hstep) hr

/-- Steps other than the timer case keep the tick counter, the pending list and `out`. -/
theorem run_sched {n : Nat} {s s' : State} (ls : List Label) (hr : run n s ls = some s')
    (hl : Label.timer ∉ ls) :
    s'.sched.tickCount = s.sched.tickCount ∧
      s'.sched.delayedActions = s.sched.delayedActions ∧ s'.sched.out = s.sched.out := by
  induction ls generalizing s with
  | nil =>
    simp only [run, Option.some.injEq] at hr
    subst hr
    exact ⟨rfl, rfl, rfl⟩
  | cons l ls ih =>
    simp only [run] at hr
    cases hstep : step n s l with
    | none => simp [hstep] at hr
    | some s1 =>
      simp only [hstep, Option.some_bind] at hr
      simp only [List.mem_cons, not_or] at hl
      obtain ⟨a, b, c⟩ := ih hr hl.2
      obtain ⟨a', b', c'⟩ := step_sched hstep (Ne.symm hl.1)
      exact ⟨a.trans a', b.trans b', c.trans c'⟩

theorem run_quiet_no_timer {n : Nat} {A : Nat} (ls : List Label) {s s' : State}
    (hr : run n s ls = some s')
    (hreg : (s.bots A).Registers.get "motor_ready" = 1) (hin : (s.bots A).inbound = none)
    (hnot : Label.timer ∉ ls) :
    (s'.bots A).Registers.get "motor_ready" = 1 ∧ (s'.bots A).inbound = none := by
  induction ls generalizing s with
  | nil =>
    simp only [run, Option.some.injEq] at hr
    subst hr
    exact ⟨hreg, hin⟩
  | cons l ls ih =>
    simp only [run] at hr
    cases hstep : step n s l with
    | none => simp [hstep] at hr
    | some s1 =>
      simp only [hstep, Option.some_bind] at hr
      simp only [List.mem_cons, not_or] at hnot
      obtain ⟨q1, q2⟩ := step_quiet hstep hreg hin (fun h => absurd h.symm hnot.1)
      exact ih hr q1 q2 hnot.2

/-- After a call of `motor_step_fw`, through every run with at most one timer case,
bot `A` keeps reading `motor_ready = 1` and its `eventHandler` receives nothing,
provided no action for `A` was pending at the start. -/
theorem run_quiet {n : Nat} {A : Nat} (ls : List Label) {s s' : State}
    (hr : run n s ls = some s')
    (hreg : (s.bots A).Registers.get "motor_ready" = 1) (hin : (s.bots A).inbound = none)
    (hda : actionsOf A s.sched.delayedActions = 0) (hc : ls.count .timer ≤ 1) :
    (s'.bots A).Registers.get "motor_ready" = 1 ∧ (s'.bots A).inbound = none := by
  induction ls generalizing s with
  | nil =>
    simp only [run, Option.some.injEq] at hr
    subst hr
    exact ⟨hreg, hin⟩
  | cons l ls ih =>
    simp only [run] at hr
    cases hstep : step n s l with
    | none => simp [hstep] at hr
    | some s1 =>
      simp only [hstep, Option.some_bind] at hr
      obtain ⟨q1, q2⟩ := step_quiet hstep hreg hin (fun _ => hda)
      by_cases hl : l = .timer
      · subst hl
        simp only [List.count_cons_self] at hc
        have hnot : Label.timer ∉ ls := by
          intro hmem
          have := List.count_pos_iff.2 hmem
          omega
        exact run_quiet_no_timer ls hr q1 q2 hnot
      · have hsd := (step_sched hstep hl).2.1
        have hc' : ls.count .timer ≤ 1 := by
          rw [List.count_cons_of_ne (Ne.symm hl)] at hc
          exact hc
        exact ih hr q1 q2 (by rw [hsd]; exact hda) hc'

theorem motor_step_fw_calls_busy (ID : Nat) (n : Nat) (regs : Registers)
    (h : regs.get "motor_ready" ≠ 0) : motor_step_fw_calls ID n regs = (regs, []) := by
  induction n with
  | zero => rfl
  | succ k ih => simp [motor_step_fw_calls, motor_step_fw, h, ih]

theorem count_created (t : Int) (e : Event) (batch : List Event)
    (h : ∀ e' ∈ batch, e'.Command = "move_fw") :
    (created t batch).count (schedule t e) = requestsOf e.BotID batch := by
  induction batch with
  | nil => simp [created, moveRequests, requestsOf]
  | cons e' rest ih =>
    have he' : e'.Command = "move_fw" := h e' (by simp)
    have ih' := ih (fun x hx => h x (by simp [hx]))
    simp only [created, moveRequests, requestsOf] at ih' ⊢
    simp only [List.filter_cons, he', decide_True, if_true, List.map_cons, List.count_cons,
      List.countP_cons, ih']
    congr 1
    simp [schedule]

theorem length_le_of_requestsOf (n : Nat) (l : List Event) (hlt : ∀ e ∈ l, e.BotID < n)
    (hone : ∀ i, requestsOf i l ≤ 1) : l.length ≤ n := by
  have hnd : (l.map Event.BotID).Nodup := by
    rw [List.nodup_iff_count_le_one]
    intro a
    have := hone a
    simp only [requestsOf] at this
    rw [List.count, List.countP_map]
    have heq : List.countP ((fun x => x == a) ∘ Event.BotID) l =
        List.countP (fun e => decide (e.BotID = a)) l := by
      congr 1
    omega
  have hsub : (l.map Event.BotID).toFinset ⊆ Finset.range n := by
    intro a ha
    simp only [List.mem_toFinset, List.mem_map] at ha
    obtain ⟨e, he, rfl⟩ := ha
    exact Finset.mem_range.2 (hlt e he)
  have hcard := Finset.card_le_card hsub
  rw [List.toFinset_card_of_nodup hnd, Finset.card_range, List.length_map] at hcard
  exact hcard

/-- With `n` bots the two buffers and the scheduler's hand hold at most `n` requests. -/
theorem Inv.total_le {n : Nat} {s : State} (h : Inv n s) :
    s.eventQueue.length + s.sched.toProcess.length + s.held.toList.length ≤ n := by
  have := length_le_of_requestsOf n (s.eventQueue ++ s.sched.toProcess ++ s.held.toList)
    (by
      intro e he
      simp only [List.mem_append] at he
      rcases he with (he | he) | he
      · exact (h.requests e (Or.inl he)).2
      · exact (h.requests e (Or.inr (Or.inl he))).2
      · exact (h.requests e (Or.inr (Or.inr he))).2)
    (by
      intro i
      have := (h.bot i).2.2.2.2
      simp only [outstanding, inFlight] at this
      simp only [requestsOf_append]
      omega)
  simpa only [List.length_append] using this

/-- With at most eight bots the scheduler is never blocked in its forwarding send. -/
theorem Inv.held_none {n : Nat} {s : State} (h : Inv n s) (hn : n ≤ 8) : s.held = none := by
  by_contra hc
  have h1 := h.queues.2.2 hc
  have h2 := h.total_le
  have h3 : 1 ≤ s.held.toList.length := by
    rcases hh : s.held with _ | e
    · exact absurd hh hc
    · simp
  simp only [toProcessCap] at h1
  omega

/-- What the timer case does to a state in which it completes. -/
theorem step_timer {n : Nat} {s s' : State} (hs : step n s .timer = some s') :
    s.held = none ∧ runActions n (timerFire s.sched).2 s.bots = some s'.bots ∧
      s'.sched = (timerFire s.sched).1 ∧ s'.eventQueue = s.eventQueue ∧ s'.held = none ∧
      s'.submitted = s.submitted ∧
      s'.processed = s.processed + s.sched.toProcess.length := by
  simp only [step] at hs
  split at hs
  swap
  · simp at hs
  rename_i hh
  simp only [Option.map_eq_some'] at hs
  obtain ⟨bots', hrun, rfl⟩ := hs
  exact ⟨hh, hrun, rfl, rfl, hh, rfl, rfl⟩

theorem run_tickCount {n : Nat} (ls : List Label) {s s' : State}
    (hr : run n s ls = some s') (h0 : wrapInt s.sched.tickCount = s.sched.tickCount) :
    s'.sched.tickCount = wrapInt (s.sched.tickCount + (ls.count .timer : Nat)) := by
  induction ls generalizing s with
  | nil =>
    simp only [run, Option.some.injEq] at hr
    subst hr
    simpa using h0.symm
  | cons l ls ih =>
    simp only [run] at hr
    cases hstep : step n s l with
    | none => simp [hstep] at hr
    | some s1 =>
      simp only [hstep, Option.some_bind] at hr
      by_cases hl : l = .timer
      · subst hl
        have h1 : s1.sched.tickCount = wrapInt (s.sched.tickCount + 1) := by
          rw [(step_timer hstep).2.2.1, timerFire_eq]
        rw [ih hr (by rw [h1, wrapInt_idem]), h1, wrapInt_add]
        simp only [List.count_cons_self]
        push_cast
        congr 1
        omega
      · have h1 := (step_sched hstep hl).1
        rw [ih hr (by rw [h1]; exact h0), h1, List.count_cons_of_ne (Ne.symm hl)]

/-- From a state of the invariant whose scheduler is not blocked, any number of
timer cases in a row can be taken. -/
theorem Inv.fires {n : Nat} (k : Nat) {s : State} (h : Inv n s) (hh : s.held = none)
    (h0 : wrapInt s.sched.tickCount = s.sched.tickCount) :
    ∃ s', run n s (List.replicate k .timer) = some s' ∧
      s'.sched.tickCount = wrapInt (s.sched.tickCount + k) := by
  induction k generalizing s with
  | zero => exact ⟨s, rfl, by simpa using h0.symm⟩
  | succ k ih =>
    obtain ⟨bots', _, _, hstep⟩ := h.timer_eq hh
    obtain ⟨s', hrun, htick⟩ := ih (h.step .timer hstep) hh (wrapInt_idem _)
    refine ⟨s', ?_, ?_⟩
    · simp only [List.replicate_succ, run, hstep, Option.some_bind]
      exact hrun
    · rw [htick]
      simp only
      rw [wrapInt_add]
      push_cast
      congr 1
      omega

theorem dueAt_notDueAt (c t : Int) (das : List DelayedAction) (h : c ≠ t) :
    dueAt c (notDueAt t das) = dueAt c das := by
  simp only [dueAt, notDueAt, List.filter_filter]
  apply List.filter_congr
  intro da _
  by_cases hda : da.TargetTick = c
  · simp [hda, h]
  · simp [hda]

theorem requestsOf_pos {e : Event} {l : List Event} (h : e ∈ l) :
    0 < requestsOf e.BotID l := by
  simp only [requestsOf, List.countP_pos_iff]
  exact ⟨e, h, by simp⟩

theorem undelivered_eq_zero {m : Option RegChange} (h : undelivered m = 0) : m = none := by
  cases m with
  | none => rfl
  | some rc => simp [undelivered] at h

theorem actionsOf_pos {da : DelayedAction} {l : List DelayedAction} (h : da ∈ l) :
    0 < actionsOf da.Action l := by
  simp only [actionsOf, List.countP_pos_iff]
  exact ⟨da, h, by simp⟩

/-- A call of `motor_step_fw` by a bot whose `motor_ready` reads 0. -/
theorem step_motorStepFw_ready {n : Nat} {s s' : State} {A : Nat}
    (hs : step n s (.motorStepFw A) = some s')
    (h0 : (s.bots A).Registers.get "motor_ready" = 0) :
    A < n ∧ (s'.bots A).Registers.get "motor_ready" = 1 ∧
      (s'.bots A).inbound = (s.bots A).inbound := by
  simp only [step, motor_step_fw, h0, if_true] at hs
  split_ifs at hs with hc hfull
  · cases hs
    simp only [Function.update_same, Registers.get_set_same]
    exact ⟨hc.1, trivial, trivial⟩
  · cases hs
    simp only [Function.update_same, Registers.get_set_same]
    exact ⟨hc.1, trivial, trivial⟩

/-- The step of `eventHandler` on the message it holds. -/
theorem step_listen {n : Nat} {s s' : State} {A : Nat} {rc : RegChange}
    (hs : step n s (.listen A) = some s') (hin : (s.bots A).inbound = some rc) :
    (s'.bots A).Registers = eventHandler (s.bots A).Registers rc := by
  rcases hsc : (s.bots A).script with _ | _ | e
  · simp only [step, hin, hsc] at hs
    split_ifs at hs
    cases hs
    simp
  · simp only [step, hin, hsc] at hs
    split_ifs at hs
    cases hs
    simp
  · simp [step, hin, hsc] at hs

theorem step_listen_enabled {n : Nat} {s : State} {A : Nat} {rc : RegChange} (hA : A < n)
    (hin : (s.bots A).inbound = some rc) (hsc : blockedSends (s.bots A).script = 0) :
    ∃ s', step n s (.listen A) = some s' := by
  rcases hsc' : (s.bots A).script with _ | _ | e
  · simp [step, hin, hsc', hA]
  · simp [step, hin, hsc', hA]
  · simp [hsc', blockedSends] at hsc

theorem step_listen_none {n : Nat} {s : State} {A : Nat} (hin : (s.bots A).inbound = none) :
    step n s (.listen A) = none := by
  rcases hsc : (s.bots A).script with _ | _ | e <;> simp [step, hin, hsc]

theorem step_poll_busy {n : Nat} {s s' : State} {A : Nat}
    (hw : motor_wait (s.bots A).Registers = false) (hs : step n s (.poll A) = some s') :
    s' = s := by
  simp only [step, hw, Bool.false_eq_true, if_false] at hs
  split_ifs at hs
  cases hs
  rfl

/-! ## The claims -/

/-- C3. `motor_step_fw` on the register store of bot `ID`: when `motor_ready` reads
0 (an absent key reads 0) it writes 1 and sends exactly the request
`{ID, "move_fw"}`; when `motor_ready` is 1 it sends nothing and leaves the store as
it is. So `n ≥ 1` consecutive calls, with no reset of `motor_ready` in between,
send exactly one request in total from a store that reads 0, and none from a
store that reads 1. -/
theorem motor_step_fw_emits_once (ID : Nat) (regs : Registers) (n : Nat) (hn : 1 ≤ n) :
    (regs "motor_ready" = none → regs.get "motor_ready" = 0) ∧
    (regs.get "motor_ready" = 0 →
      motor_step_fw ID regs = (regs.set "motor_ready" 1, some ⟨ID, "move_fw"⟩) ∧
      (motor_step_fw ID regs).1.get "motor_ready" = 1) ∧
    (regs.get "motor_ready" = 1 → motor_step_fw ID regs = (regs, none)) ∧
    (regs.get "motor_ready" = 0 →
      (motor_step_fw_calls ID n regs).2 = [⟨ID, "move_fw"⟩] ∧
      (motor_step_fw_calls ID n regs).1.get "motor_ready" = 1) ∧
    (regs.get "motor_ready" = 1 → motor_step_fw_calls ID n regs = (regs, [])) := by
  refine ⟨?_, ?_, ?_, ?_, ?_⟩
  · intro h
    simp [Registers.get, h]
  · intro h
    simp [motor_step_fw, h, Registers.get_set_same]
  · intro h
    simp [motor_step_fw, h]
  · intro h
    obtain ⟨k, rfl⟩ : ∃ k, n = k + 1 := ⟨n - 1, by omega⟩
    have hbusy : (regs.set "motor_ready" 1).get "motor_ready" ≠ 0 := by
      rw [Registers.get_set_same]
      decide
    simp [motor_step_fw_calls, motor_step_fw, h, motor_step_fw_calls_busy ID k _ hbusy,
      Registers.get_set_same]
  · intro h
    exact motor_step_fw_calls_busy ID n regs (by omega)

/-- C3, at a concrete input: three calls by bot 0 on the empty store. -/
theorem motor_step_fw_emits_once_witness :
    (motor_step_fw_calls 0 3 Registers.empty).2 = [⟨0, "move_fw"⟩] ∧
    (motor_step_fw_calls 0 3 Registers.empty).1.get "motor_ready" = 1 :=
  (motor_step_fw_emits_once 0 Registers.empty 3 (by decide)).2.2.2.1 (by decide)

/-- C7. Applying the reset message `{"motor_ready", 0}` to a register store is
idempotent: once applied `motor_ready` reads 0; a second application gives the
same store as the first; no other key is changed by either application. -/
theorem reset_idempotent (regs : Registers) :
    resetMsg = ⟨"motor_ready", 0⟩ ∧
    (eventHandler regs resetMsg).get "motor_ready" = 0 ∧
    (eventHandler (eventHandler regs resetMsg) resetMsg).get "motor_ready" = 0 ∧
    eventHandler (eventHandler regs resetMsg) resetMsg = eventHandler regs resetMsg ∧
    ∀ key, key ≠ "motor_ready" →
      eventHandler regs resetMsg key = regs key ∧
      eventHandler (eventHandler regs resetMsg) resetMsg key = regs key := by
  refine ⟨rfl, ?_, ?_, ?_, ?_⟩
  · simp [eventHandler, resetMsg, Registers.get_set_same]
  · simp [eventHandler, resetMsg, Registers.get_set_same]
  · simp [eventHandler, Registers.set_set]
  · intro key hkey
    simp [eventHandler, resetMsg, Registers.set_other _ _ _ _ hkey]

/-- C2, as stated, fails: at tick 1 the resolve pass does not execute a pending
action whose `TargetTick` is 0; it keeps it pending. -/
theorem stale_action_not_executed :
    resolve 1 [⟨0, 0⟩] = ⟨[], [⟨0, 0⟩]⟩ ∧
    ¬ ∀ (c : Int) (das : List DelayedAction) (da : DelayedAction),
        da ∈ das → da.TargetTick ≤ c →
          da ∈ (resolve c das).executed ∧ da ∉ (resolve c das).remaining := by
  refine ⟨by decide, ?_⟩
  intro h
  have := (h 1 [⟨0, 0⟩] ⟨0, 0⟩ (by simp) (by decide)).1
  revert this
  decide

/-- C2, amended. For every pending list and every current tick `c`, the resolve
pass executes and removes exactly the actions whose `TargetTick` equals `c`, in
list order, and keeps every other action pending in list order; each pending
action is executed or kept, once. An action is not executed before its
`TargetTick`, and one whose `TargetTick` is already past is not due: it stays
pending. -/
theorem resolve_pass_exact (c : Int) (das : List DelayedAction) :
    (resolve c das).executed = das.filter (fun da => da.TargetTick = c) ∧
    (resolve c das).remaining = das.filter (fun da => ¬ da.TargetTick = c) ∧
    (∀ da, da ∈ (resolve c das).executed ↔ da ∈ das ∧ da.TargetTick = c) ∧
    (∀ da, da ∈ (resolve c das).remaining ↔ da ∈ das ∧ da.TargetTick ≠ c) ∧
    (∀ da, (resolve c das).executed.count da + (resolve c das).remaining.count da =
      das.count da) ∧
    (∀ da ∈ das, c < da.TargetTick →
      da ∉ (resolve c das).executed ∧ da ∈ (resolve c das).remaining) ∧
    (∀ da ∈ das, da.TargetTick < c →
      da ∉ (resolve c das).executed ∧ da ∈ (resolve c das).remaining) := by
  rw [resolve_eq]
  refine ⟨rfl, rfl, fun da => mem_dueAt, fun da => mem_notDueAt, ?_, ?_, ?_⟩
  · intro da
    simp only [dueAt, notDueAt, List.count]
    rw [List.countP_filter, List.countP_filter]
    have := List.countP_eq_countP_filter_add das (fun x => x == da)
      (fun x => decide (x.TargetTick = c))
    rw [List.countP_filter, List.countP_filter] at this
    rw [this]
    simp only [decide_not]
  · intro da hda hlt
    have hne : da.TargetTick ≠ c := by omega
    exact ⟨fun hm => hne (mem_dueAt.1 hm).2, mem_notDueAt.2 ⟨hda, hne⟩⟩
  · intro da hda hlt
    have hne : da.TargetTick ≠ c := by omega
    exact ⟨fun hm => hne (mem_dueAt.1 hm).2, mem_notDueAt.2 ⟨hda, hne⟩⟩

/-- C5. The drain pass of a timer fire at tick `t` receives every request of the
processing batch, in arrival order, and leaves the batch empty. For each request
whose command is `move_fw` it sends, in that order, the notification
`bot <BotID> has moved forward` and appends the delayed action `{t+1, BotID}`,
where `t+1` is the Go expression `tickCount + 1`.
The timer case does not touch `eventQueue`: the requests there are neither
received nor removed, and the count of processed requests grows by the length
of the batch. -/
theorem drain_pass (t : Int) (batch : List Event) (out : List String)
    (das : List DelayedAction) :
    (drainLoop t batch out das).toProcess = [] ∧
    (drainLoop t batch out das).out =
      out ++ (batch.filter fun e => e.Command = "move_fw").map
        (fun e => "bot " ++ toString e.BotID ++ " has moved forward") ∧
    (drainLoop t batch out das).delayedActions =
      das ++ (batch.filter fun e => e.Command = "move_fw").map
        (fun e => (⟨wrapInt (t + 1), e.BotID⟩ : DelayedAction)) ∧
    ∀ (n : Nat) (s s' : State), step n s .timer = some s' →
      s'.sched.toProcess = [] ∧
      s'.eventQueue = s.eventQueue ∧
      s'.submitted = s.submitted ∧
      s'.processed = s.processed + s.sched.toProcess.length ∧
      s'.sched.out = s.sched.out ++ ["game tick"] ++ notifications s.sched.toProcess ++
        ["done processing"] ∧
      (∀ da ∈ created s.sched.tickCount s.sched.toProcess, da ∈ s'.sched.delayedActions) ∧
      (minInt ≤ t → t < maxInt → wrapInt (t + 1) = t + 1) := by
  rw [drainLoop_eq]
  refine ⟨rfl, rfl, rfl, ?_⟩
  intro n s s' hs
  obtain ⟨_, _, hsched, hq, _, hsub, hproc⟩ := step_timer hs
  rw [hsched, timerFire_eq]
  refine ⟨rfl, hq, hsub, hproc, rfl, ?_, wrapInt_succ_of_lt⟩
  intro da hda
  exact List.mem_append_right _ hda

/-- C4, as stated, fails: the fire at the largest `int` sets the counter to the
smallest `int`, not to one more; so the counter after `2^63` fires is not `2^63`. -/
theorem tick_counter_wraps :
    (timerFire ⟨9223372036854775807, [], [], []⟩).1.tickCount = -9223372036854775808 ∧
    (¬ ∀ sched : Sched, (timerFire sched).1.tickCount = sched.tickCount + 1) ∧
    ¬ ∀ (k : Nat) (s' : State), run 2 State.init (List.replicate k .timer) = some s' →
        s'.sched.tickCount = (k : Int) := by
  refine ⟨by decide, ?_, ?_⟩
  · intro h
    have := h ⟨9223372036854775807, [], [], []⟩
    revert this
    decide
  · intro h
    obtain ⟨s', hrun, htick⟩ :=
      (Inv.init 2).fires 9223372036854775808 rfl (by decide)
    have := h 9223372036854775808 s' hrun
    rw [htick] at this
    revert this
    simp only [State.init]
    decide

/-- C4, amended. The tick counter starts at 0; a timer fire sets it to
`tickCount + 1` in Go's 64-bit `int` arithmetic, whatever it drains and resolves:
one more below the largest `int`, the smallest `int` at the largest; no other
step changes it. So after a run with `k` timer fires the counter is `k` wrapped
to 64 bits, which is `k` itself for `k < 2^63`; no value is repeated within
`2^64` fires; and a run with `k` fires exists for every `k`. -/
theorem tick_counter (n : Nat) :
    State.init.sched.tickCount = 0 ∧
    (∀ sched : Sched, (timerFire sched).1.tickCount = wrapInt (sched.tickCount + 1)) ∧
    (∀ t : Int, minInt ≤ t → t < maxInt → wrapInt (t + 1) = t + 1) ∧
    wrapInt (maxInt + 1) = minInt ∧
    (∀ s s' : State, step n s .timer = some s' →
      s'.sched.tickCount = wrapInt (s.sched.tickCount + 1)) ∧
    (∀ (s s' : State) (l : Label), l ≠ .timer → step n s l = some s' →
      s'.sched.tickCount = s.sched.tickCount) ∧
    (∀ (ls : List Label) (s' : State), run n State.init ls = some s' →
      s'.sched.tickCount = wrapInt (ls.count .timer : Nat)) ∧
    (∀ (ls : List Label) (s' : State), run n State.init ls = some s' →
      ((ls.count .timer : Nat) : Int) ≤ maxInt →
      s'.sched.tickCount = (ls.count .timer : Nat)) ∧
    (∀ j k : Nat, j < k → k < 18446744073709551616 → wrapInt j ≠ wrapInt k) ∧
    (∀ k : Nat, ∃ s', run n State.init (List.replicate k .timer) = some s' ∧
      s'.sched.tickCount = wrapInt k) := by
  have hrun : ∀ (ls : List Label) (s' : State), run n State.init ls = some s' →
      s'.sched.tickCount = wrapInt (ls.count .timer : Nat) := by
    intro ls s' hr
    rw [run_tickCount ls hr (by decide)]
    simp [State.init]
  refine ⟨rfl, fun sched => rfl, ?_, by decide, ?_, ?_, hrun, ?_, ?_, ?_⟩
  · intro t h1 h2
    exact wrapInt_succ_of_lt h1 h2
  · intro s s' hs
    rw [(step_timer hs).2.2.1]
    rfl
  · intro s s' l hl hs
    exact (step_sched hs hl).1
  · intro ls s' hr hle
    rw [hrun ls s' hr]
    exact wrapInt_of_range (by unfold minInt; omega) hle
  · intro j k hjk hk
    unfold wrapInt
    omega
  · intro k
    obtain ⟨s', hrun', htick⟩ := (Inv.init n).fires k rfl (by decide)
    exact ⟨s', hrun', by rw [htick]; simp [State.init]⟩

/-- C10. In every reachable state, so at the start of every timer fire, every
pending delayed action has `TargetTick` equal to the tick counter; the fire
executes all of them; after its resolve pass the pending list is exactly the
actions created by its drain pass, all with `TargetTick` equal to the counter
plus one (the Go expression `tickCount + 1`), the value the counter takes at the
end of the fire. -/
theorem no_stale_action (n : Nat) (s : State) (h : Reachable n s) :
    (∀ da ∈ s.sched.delayedActions, da.TargetTick = s.sched.tickCount) ∧
    (timerFire s.sched).2 = s.sched.delayedActions ∧
    (timerFire s.sched).1.delayedActions = created s.sched.tickCount s.sched.toProcess ∧
    (timerFire s.sched).1.tickCount = wrapInt (s.sched.tickCount + 1) ∧
    (∀ da ∈ (timerFire s.sched).1.delayedActions,
      da.TargetTick = wrapInt (s.sched.tickCount + 1)) ∧
    (∀ s', step n s .timer = some s' → s'.sched = (timerFire s.sched).1) ∧
    (minInt ≤ s.sched.tickCount → s.sched.tickCount < maxInt →
      wrapInt (s.sched.tickCount + 1) = s.sched.tickCount + 1) := by
  have hdue : ∀ da ∈ s.sched.delayedActions, da.TargetTick = s.sched.tickCount :=
    fun da hda => (h.inv.actions da hda).1
  rw [timerFire_eq, dueAt_eq_self hdue, notDueAt_eq_nil hdue]
  refine ⟨hdue, rfl, rfl, rfl, ?_, ?_, wrapInt_succ_of_lt⟩
  · intro da hda
    exact created_target hda
  · intro s' hs
    rw [(step_timer hs).2.2.1, timerFire_eq, notDueAt_eq_nil hdue]

/-- C10, at the state after one request and one timer fire. -/
theorem no_stale_action_witness :
    Reachable 2 (stateAfter 2 oneRequestRun) ∧
    (stateAfter 2 oneRequestRun).sched.delayedActions = [⟨1, 0⟩] ∧
    (stateAfter 2 oneRequestRun).sched.tickCount = 1 ∧
    (timerFire (stateAfter 2 oneRequestRun).sched).2 =
      (stateAfter 2 oneRequestRun).sched.delayedActions :=
  have hr : Reachable 2 (stateAfter 2 oneRequestRun) :=
    reachable_run oneRequestRun Reachable.init rfl
  ⟨hr, by decide, by decide, (no_stale_action 2 _ hr).2.1⟩

/-- C9. In every reachable state each bot has at most one request in flight (in
`eventQueue`, in `toProcess`, as a pending delayed action, or as a reset message
not yet written), and it has one only while its `motor_ready` reads 1. So with
`n` bots the two buffers together never hold more than `n` requests; with at
most 7 bots, in particular the 2 of `main`, neither buffer is ever full and the
scheduler's forwarding send never blocks. -/
theorem one_request_in_flight (n : Nat) (s : State) (h : Reachable n s) :
    (∀ i, inFlight s i ≤ 1 ∧
      (inFlight s i = 1 → (s.bots i).Registers.get "motor_ready" = 1)) ∧
    s.eventQueue.length + s.sched.toProcess.length ≤ n ∧
    (n ≤ 7 →
      s.eventQueue.length < eventQueueCap ∧ s.sched.toProcess.length < toProcessCap ∧
      s.held = none ∧ ∀ s', step n s .forward = some s' → s'.held = none) := by
  have hinv := h.inv
  refine ⟨?_, ?_, ?_⟩
  · intro i
    obtain ⟨_, _, _, hready, hone⟩ := hinv.bot i
    simp only [outstanding] at hready hone
    refine ⟨by omega, ?_⟩
    intro h1
    rw [hready]
    have : inFlight s i + requestsOf i s.held.toList + blockedSends (s.bots i).script = 1 := by
      omega
    rw [this]
    rfl
  · have := hinv.total_le
    omega
  · intro hn
    have htot := hinv.total_le
    refine ⟨?_, ?_, hinv.held_none (by omega), ?_⟩
    · simp only [eventQueueCap]
      omega
    · simp only [toProcessCap]
      omega
    · intro s' hs
      exact (hinv.step .forward hs).held_none (by omega)

/-- C9, at the state after one request and one timer fire, with the 2 bots of `main`. -/
theorem one_request_in_flight_witness :
    Reachable 2 (stateAfter 2 oneRequestRun) ∧
    inFlight (stateAfter 2 oneRequestRun) 0 = 1 ∧
    ((stateAfter 2 oneRequestRun).bots 0).Registers.get "motor_ready" = 1 ∧
    (stateAfter 2 oneRequestRun).held = none :=
  have hr : Reachable 2 (stateAfter 2 oneRequestRun) :=
    reachable_run oneRequestRun Reachable.init rfl
  ⟨hr, by decide,
    ((one_request_in_flight 2 _ hr).1 0).2 (by decide),
    ((one_request_in_flight 2 _ hr).2.2 (by decide)).2.2.1⟩

/-- C8, as stated, fails: with 9 bots the run `blockedRun` reaches a state with 9
requests submitted, none processed, an empty `eventQueue` and 8 requests in
`toProcess`; the ninth is in the hand of the scheduler, blocked in the send of
line 207, where neither case of its `select` can be taken. -/
theorem request_in_blocked_scheduler :
    Reachable 9 (stateAfter 9 blockedRun) ∧
    (stateAfter 9 blockedRun).submitted = 9 ∧
    (stateAfter 9 blockedRun).processed = 0 ∧
    notified (stateAfter 9 blockedRun).sched.out = 0 ∧
    (stateAfter 9 blockedRun).eventQueue.length = 0 ∧
    (stateAfter 9 blockedRun).sched.toProcess.length = 8 ∧
    (stateAfter 9 blockedRun).held = some ⟨8, "move_fw"⟩ ∧
    (step 9 (stateAfter 9 blockedRun) .timer).isNone = true ∧
    (step 9 (stateAfter 9 blockedRun) .forward).isNone = true ∧
    ¬ ∀ (n : Nat) (s : State), Reachable n s →
        s.submitted = s.processed + s.eventQueue.length + s.sched.toProcess.length := by
  have hr : Reachable 9 (stateAfter 9 blockedRun) :=
    reachable_run blockedRun Reachable.init rfl
  refine ⟨hr, by decide, by decide, by decide, by decide, by decide, by decide, by decide,
    by decide, ?_⟩
  intro h
  have := h 9 _ hr
  revert this
  decide

/-- C8, amended. `eventQueue` has capacity 8 and never drops a request. A call of
`motor_step_fw` on a queue that holds 8 requests leaves the queue as it is and
counts no submission: the script stays blocked in the send, holding its
request, which no step completes while the queue is full and which is appended
when the send completes. In every reachable state the requests submitted equal
the requests processed by drain passes (the notifications on `out`) plus those in
`eventQueue`, in `toProcess`, and in the hand of the scheduler while its send
into a full `toProcess` is blocked, which is at most one request; with at most 8
bots, in particular the 2 of `main`, the scheduler holds none and the submitted
requests equal the processed ones plus those in the two buffers. -/
theorem no_request_lost (n : Nat) (s : State) (h : Reachable n s) :
    eventQueueCap = 8 ∧
    s.eventQueue.length ≤ eventQueueCap ∧
    (∀ (q q' : State) (i : Nat), q.eventQueue.length = eventQueueCap →
      step n q (.motorStepFw i) = some q' →
        q'.eventQueue = q.eventQueue ∧ q'.submitted = q.submitted ∧
        ((q.bots i).Registers.get "motor_ready" = 0 →
          (q'.bots i).script = .sending ⟨(q.bots i).ID, "move_fw"⟩)) ∧
    (∀ (q : State) (i : Nat), q.eventQueue.length = eventQueueCap →
      step n q (.sendDone i) = none) ∧
    (∀ (q q' : State) (i : Nat) (e : Event), (q.bots i).script = .sending e →
      step n q (.sendDone i) = some q' →
        q'.eventQueue = q.eventQueue ++ [e] ∧ q'.submitted = q.submitted + 1) ∧
    s.processed = notified s.sched.out ∧
    s.submitted = notified s.sched.out + s.eventQueue.length + s.sched.toProcess.length +
      s.held.toList.length ∧
    s.held.toList.length ≤ 1 ∧
    (s.held ≠ none → s.sched.toProcess.length = toProcessCap) ∧
    (n ≤ 8 → s.held = none ∧
      s.submitted = notified s.sched.out + s.eventQueue.length + s.sched.toProcess.length) := by
  have hinv := h.inv
  have hcount := hinv.counted
  rw [hinv.traced] at hcount
  refine ⟨rfl, hinv.queues.1, ?_, ?_, ?_, hinv.traced, hcount, ?_, hinv.queues.2.2, ?_⟩
  · intro q q' i hfull hs
    have hnot : ¬ q.eventQueue.length < eventQueueCap := by omega
    simp only [step, motor_step_fw] at hs
    by_cases h0 : (q.bots i).Registers.get "motor_ready" = 0
    · simp only [h0, if_true, hnot, if_false] at hs
      split_ifs at hs
      cases hs
      simp
    · simp only [h0, if_false] at hs
      split_ifs at hs
      cases hs
      exact ⟨rfl, rfl, fun hc => absurd hc h0⟩
  · intro q i hfull
    have hnot : ¬ q.eventQueue.length < eventQueueCap := by omega
    simp only [step]
    split <;> simp [hnot]
  · intro q q' i e hsc hs
    simp only [step, hsc] at hs
    split_ifs at hs
    cases hs
    exact ⟨rfl, rfl⟩
  · cases s.held <;> simp
  · intro hn
    have hnone := hinv.held_none hn
    rw [hnone] at hcount
    exact ⟨hnone, by simpa using hcount⟩

/-- C8, amended, at the state `blockedRun` reaches with 9 bots: 9 requests
submitted, 8 in `toProcess`, the ninth in the hand of the blocked scheduler. -/
theorem no_request_lost_witness :
    Reachable 9 (stateAfter 9 blockedRun) ∧
    (stateAfter 9 blockedRun).submitted = 9 ∧
    (stateAfter 9 blockedRun).held.toList.length = 1 ∧
    (stateAfter 9 blockedRun).submitted =
      notified (stateAfter 9 blockedRun).sched.out +
        (stateAfter 9 blockedRun).eventQueue.length +
        (stateAfter 9 blockedRun).sched.toProcess.length +
        (stateAfter 9 blockedRun).held.toList.length :=
  have hr : Reachable 9 (stateAfter 9 blockedRun) :=
    reachable_run blockedRun Reachable.init rfl
  ⟨hr, by decide, by decide, (no_request_lost 9 _ hr).2.2.2.2.2.2.1⟩

/-- C1. Here `t+1` is the Go expression `tickCount + 1`, `wrapInt (t + 1)`.
Let a timer fire at tick `t` drain a `move_fw` request `e`, and let `next`
be the scheduler at the following fire (the counter and the pending list are as
the fire at `t` left them; the batch is whatever was forwarded meanwhile). The
delayed action `{t+1, e.BotID}` created for `e` is pending after the fire at `t`
and is not executed by it; the fire at `t+1` executes the pending actions with
`TargetTick = t+1`, which end with one execution for each `move_fw` request of
the batch of `t`, in order; it executes every pending copy of the action once
and leaves none pending; a fire at a tick other than `t+1` never executes it.
In a run of the system the fire at `t+1` executes exactly the actions created at
`t`, and the action of `e` exactly once; the steps between two fires change
neither the counter nor the pending list. -/
theorem delayed_action_fires_next_tick (s next : Sched) (e : Event)
    (he : e ∈ s.toProcess) (hc : e.Command = "move_fw")
    (htick : next.tickCount = (timerFire s).1.tickCount)
    (hpend : next.delayedActions = (timerFire s).1.delayedActions) :
    schedule s.tickCount e = ⟨wrapInt (s.tickCount + 1), e.BotID⟩ ∧
    next.tickCount = wrapInt (s.tickCount + 1) ∧
    schedule s.tickCount e ∈ (timerFire s).1.delayedActions ∧
    schedule s.tickCount e ∉ (timerFire s).2 ∧
    (timerFire next).2 =
      dueAt (wrapInt (s.tickCount + 1)) s.delayedActions ++
        created s.tickCount s.toProcess ∧
    schedule s.tickCount e ∈ (timerFire next).2 ∧
    (timerFire next).2.count (schedule s.tickCount e) =
      (timerFire s).1.delayedActions.count (schedule s.tickCount e) ∧
    schedule s.tickCount e ∉ (timerFire next).1.delayedActions ∧
    (∀ later : Sched, later.tickCount ≠ wrapInt (s.tickCount + 1) →
      schedule s.tickCount e ∉ (timerFire later).2) ∧
    (∀ (n : Nat) (st : State), Reachable n st → st.sched = s →
      (timerFire next).2 = created s.tickCount s.toProcess ∧
      (timerFire next).2.count (schedule s.tickCount e) = 1) ∧
    (∀ (n : Nat) (st st' : State) (ls : List Label), Label.timer ∉ ls →
      run n st ls = some st' →
        st'.sched.tickCount = st.sched.tickCount ∧
        st'.sched.delayedActions = st.sched.delayedActions) ∧
    (minInt ≤ s.tickCount → s.tickCount < maxInt →
      wrapInt (s.tickCount + 1) = s.tickCount + 1) := by
  have hne : wrapInt (s.tickCount + 1) ≠ s.tickCount := wrapInt_succ_ne _
  have hcreated : schedule s.tickCount e ∈ created s.tickCount s.toProcess :=
    mem_created.2 ⟨e, he, hc, rfl⟩
  have htick' : next.tickCount = wrapInt (s.tickCount + 1) := by rw [htick, timerFire_eq]
  have hpend' : next.delayedActions =
      notDueAt s.tickCount s.delayedActions ++ created s.tickCount s.toProcess := by
    rw [hpend, timerFire_eq]
  have hexec : (timerFire next).2 =
      dueAt (wrapInt (s.tickCount + 1)) s.delayedActions ++
        created s.tickCount s.toProcess := by
    rw [timerFire_eq, htick', hpend', dueAt_append, dueAt_notDueAt _ _ _ hne,
      dueAt_created_self]
  refine ⟨rfl, htick', ?_, ?_, hexec, ?_, ?_, ?_, ?_, ?_,
    fun n st st' ls hls hr => ⟨(run_sched ls hr hls).1, (run_sched ls hr hls).2.1⟩,
    wrapInt_succ_of_lt⟩
  · rw [timerFire_eq]
    exact List.mem_append_right _ hcreated
  · rw [timerFire_eq]
    intro hm
    have := (mem_dueAt.1 hm).2
    simp only [schedule] at this
    omega
  · rw [hexec]
    exact List.mem_append_right _ hcreated
  · rw [timerFire_eq next, ← hpend, htick']
    simp only [dueAt]
    rw [List.count_filter]
    simp [schedule]
  · rw [timerFire_eq next, htick']
    intro hm
    simp only [List.mem_append] at hm
    rcases hm with hm | hm
    · exact (mem_notDueAt.1 hm).2 rfl
    · have := created_target hm
      simp only [schedule] at this
      exact wrapInt_succ_ne _ this.symm
  · intro later hl hm
    rw [timerFire_eq] at hm
    have := (mem_dueAt.1 hm).2
    simp only [schedule] at this
    exact hl this.symm
  · intro n st hst hs
    subst hs
    have hinv := hst.inv
    have hdue : ∀ da ∈ st.sched.delayedActions, da.TargetTick = st.sched.tickCount :=
      fun da hda => (hinv.actions da hda).1
    have hnone : dueAt (wrapInt (st.sched.tickCount + 1)) st.sched.delayedActions = [] := by
      unfold dueAt
      rw [List.filter_eq_nil_iff]
      intro da hda
      simp [hdue da hda, hne.symm]
    have hexec' : (timerFire next).2 = created st.sched.tickCount st.sched.toProcess := by
      rw [hexec, hnone, List.nil_append]
    refine ⟨hexec', ?_⟩
    rw [hexec', count_created _ _ _ (fun e' he' => (hinv.requests e' (Or.inr (Or.inl he'))).1)]
    have h1 := requestsOf_pos he
    have h2 := (hinv.bot e.BotID).2.2.2.2
    simp only [outstanding, inFlight] at h2
    omega

/-- C1, at a concrete input: the request of bot 0 drained at tick 0. -/
theorem delayed_action_fires_next_tick_witness :
    (timerFire ⟨0, [], [⟨0, "move_fw"⟩], []⟩).2 = [] ∧
    (timerFire ⟨1, [⟨1, 0⟩], [], []⟩).2 = [⟨1, 0⟩] ∧
    (timerFire ⟨1, [⟨1, 0⟩], [], []⟩).1.delayedActions = [] ∧
    (timerFire ⟨1, [⟨1, 0⟩], [], []⟩).2.count (schedule 0 ⟨0, "move_fw"⟩) =
      (timerFire ⟨0, [], [⟨0, "move_fw"⟩], []⟩).1.delayedActions.count
        (schedule 0 ⟨0, "move_fw"⟩) :=
  ⟨by decide, by decide, by decide,
    (delayed_action_fires_next_tick ⟨0, [], [⟨0, "move_fw"⟩], []⟩ ⟨1, [⟨1, 0⟩], [], []⟩
      ⟨0, "move_fw"⟩ (by decide) (by decide) (by decide) (by decide)).2.2.2.2.2.2.1⟩

/-- C6. Let bot `A` read `motor_ready = 0` and call `motor_step_fw` while the tick
counter is 0, let the request be in the batch drained by the fire at tick 0, and
let the fire at tick 1 follow, with any other steps in between. Then: after the
call `motor_ready` is 1; the fire at tick 0 sends `bot A has moved forward`
between its `game tick` and `done processing`; `motor_ready` is still 1 after
that fire; in every state reached from the call by a run with at most one timer
fire, `motor_ready` is 1, the `eventHandler` of `A` holds no message and cannot
step, and an iteration of the loop of `motor_wait` does not return; the fire at
tick 1 hands the reset message to the `eventHandler` of `A`, with `motor_ready`
still 1; the `eventHandler` can then write it, and once it has, `motor_ready` is
0 and the loop of `motor_wait` breaks. -/
theorem motor_wait_returns_after_tick_one (n A : Nat) (s0 s1 s2 s3 s4 s5 : State)
    (pre mid : List Label)
    (h0 : Reachable n s0) (ht : s0.sched.tickCount = 0)
    (hready : (s0.bots A).Registers.get "motor_ready" = 0)
    (hcall : step n s0 (.motorStepFw A) = some s1)
    (hpre : run n s1 pre = some s2) (hpre' : Label.timer ∉ pre)
    (hdrain : (⟨A, "move_fw"⟩ : Event) ∈ s2.sched.toProcess)
    (hfire0 : step n s2 .timer = some s3)
    (hmid : run n s3 mid = some s4) (hmid' : Label.timer ∉ mid)
    (hfire1 : step n s4 .timer = some s5) :
    (s1.bots A).Registers.get "motor_ready" = 1 ∧
    s2.sched.tickCount = 0 ∧
    movedMsg A ∈ notifications s2.sched.toProcess ∧
    s3.sched.out = s2.sched.out ++ ["game tick"] ++ notifications s2.sched.toProcess ++
      ["done processing"] ∧
    (s3.bots A).Registers.get "motor_ready" = 1 ∧
    (∀ (ls : List Label) (s : State), ls.count .timer ≤ 1 → run n s1 ls = some s →
      (s.bots A).Registers.get "motor_ready" = 1 ∧ (s.bots A).inbound = none ∧
      motor_wait (s.bots A).Registers = false ∧
      step n s (.listen A) = none ∧
      ∀ s', step n s (.poll A) = some s' → s' = s) ∧
    s4.sched.tickCount = 1 ∧
    (s5.bots A).inbound = some resetMsg ∧
    (s5.bots A).Registers.get "motor_ready" = 1 ∧
    (∃ s6, step n s5 (.listen A) = some s6) ∧
    (∀ s6, step n s5 (.listen A) = some s6 →
      (s6.bots A).Registers.get "motor_ready" = 0 ∧
      motor_wait (s6.bots A).Registers = true) := by
  have hinv0 := h0.inv
  -- nothing is outstanding for `A` before the call
  have hout0 : outstanding s0 A = 0 := by
    have := (hinv0.bot A).2.2.2.1
    rw [hready] at this
    exact_mod_cast this.symm
  simp only [outstanding, inFlight] at hout0
  have hin0 : (s0.bots A).inbound = none := undelivered_eq_zero (by omega)
  have hda0 : actionsOf A s0.sched.delayedActions = 0 := by omega
  -- the call
  obtain ⟨hA, hreg1, hin1⟩ := step_motorStepFw_ready hcall hready
  rw [hin0] at hin1
  have hsched1 := step_sched hcall (l := .motorStepFw A) (by simp)
  have hda1 : actionsOf A s1.sched.delayedActions = 0 := by rw [hsched1.2.1]; exact hda0
  -- every state up to the second fire
  have hquiet : ∀ (ls : List Label) (s : State), ls.count .timer ≤ 1 →
      run n s1 ls = some s →
      (s.bots A).Registers.get "motor_ready" = 1 ∧ (s.bots A).inbound = none :=
    fun ls s hc hr => run_quiet ls hr hreg1 hin1 hda1 hc
  have hcount_pre : pre.count .timer = 0 := List.count_eq_zero.2 hpre'
  have hcount_mid : mid.count .timer = 0 := List.count_eq_zero.2 hmid'
  have hrun3 : run n s1 (pre ++ [.timer]) = some s3 := by
    simp [run_append, hpre, run, hfire0]
  have hrun4 : run n s1 (pre ++ [.timer] ++ mid) = some s4 := by
    rw [run_append, hrun3]
    simpa using hmid
  have hq3 := hquiet _ s3 (by simp [List.count_append, hcount_pre]) hrun3
  have hq4 := hquiet _ s4 (by simp [List.count_append, hcount_pre, hcount_mid]) hrun4
  -- the ticks
  have htick2 : s2.sched.tickCount = 0 := by
    rw [(run_sched pre hpre hpre').1, hsched1.1, ht]
  have hsched3 := (step_timer hfire0).2.2.1
  have hsched4 := run_sched mid hmid hmid'
  have htick4 : s4.sched.tickCount = 1 := by
    rw [hsched4.1, hsched3, timerFire_eq, htick2]
    rfl
  -- the pending action of `A` at the second fire
  have hreach4 : Reachable n s4 :=
    reachable_run _ (Reachable.step _ h0 hcall) hrun4
  have hinv4 := hreach4.inv
  have hmem4 : schedule s2.sched.tickCount ⟨A, "move_fw"⟩ ∈ s4.sched.delayedActions := by
    rw [hsched4.2.1, hsched3, timerFire_eq]
    exact List.mem_append_right _ (mem_created.2 ⟨_, hdrain, rfl, rfl⟩)
  have hpos4 : 0 < actionsOf A s4.sched.delayedActions := actionsOf_pos hmem4
  obtain ⟨_, hrunA, _⟩ := step_timer hfire1
  rw [timerFire_eq, dueAt_eq_self (fun da hda => (hinv4.actions da hda).1)] at hrunA
  obtain ⟨_, hregs5, hscript5, _, hin5⟩ := runActions_frame n _ _ _ hrunA A
  have hin5' := hin5 hpos4
  have hreg5 : (s5.bots A).Registers.get "motor_ready" = 1 := by rw [hregs5]; exact hq4.1
  have hinv5 := hinv4.step .timer hfire1
  have hblock5 : blockedSends (s5.bots A).script = 0 := by
    have := (hinv5.bot A).2.2.2.2
    simp only [outstanding, inFlight, hin5', undelivered] at this
    omega
  refine ⟨hreg1, htick2, ?_, ?_, hq3.1, ?_, htick4, hin5', hreg5,
    step_listen_enabled hA hin5' hblock5, ?_⟩
  · simp only [notifications, moveRequests, List.mem_map, List.mem_filter, decide_eq_true_eq]
    exact ⟨⟨A, "move_fw"⟩, ⟨hdrain, rfl⟩, rfl⟩
  · rw [hsched3, timerFire_eq]
  · intro ls s hc hr
    obtain ⟨q1, q2⟩ := hquiet ls s hc hr
    have hw : motor_wait (s.bots A).Registers = false := by simp [motor_wait, q1]
    exact ⟨q1, q2, hw, step_listen_none q2, fun s' hs' => step_poll_busy hw hs'⟩
  · intro s6 hs6
    have := step_listen hs6 hin5'
    rw [this]
    simp [eventHandler, resetMsg, Registers.get_set_same, motor_wait]

/-- C6, at the run `scenarioRun` of the 2 bots of `main`, for bot 0. -/
theorem motor_wait_returns_after_tick_one_witness :
    ((stateAfter 2 (scenarioRun.take 1)).bots 0).Registers.get "motor_ready" = 1 ∧
    (stateAfter 2 (scenarioRun.take 3)).sched.out =
      ["game tick", "bot 0 has moved forward", "done processing"] ∧
    ((stateAfter 2 (scenarioRun.take 5)).bots 0).script = .waiting ∧
    ((stateAfter 2 scenarioRun).bots 0).inbound = some resetMsg ∧
    ((stateAfter 2 scenarioRun).bots 0).Registers.get "motor_ready" = 1 ∧
    ∃ s6, step 2 (stateAfter 2 scenarioRun) (.listen 0) = some s6 :=
  have h := motor_wait_returns_after_tick_one 2 0 State.init
    (stateAfter 2 (scenarioRun.take 1)) (stateAfter 2 (scenarioRun.take 2))
    (stateAfter 2 (scenarioRun.take 3)) (stateAfter 2 (scenarioRun.take 5))
    (stateAfter 2 scenarioRun) [.forward] [.motorWait 0, .poll 0]
    Reachable.init rfl (by decide) rfl rfl (by decide) (by decide) rfl rfl (by decide) rfl
  ⟨h.1, by decide, by decide, h.2.2.2.2.2.2.2.1, h.2.2.2.2.2.2.2.2.1, h.2.2.2.2.2.2.2.2.2.1⟩

end Gobits
